import Mathlib

/-
  Verification development for the VoyAIge travel-chat client.

  The definitions below are a shallow embedding of the client page
  (payload normalizer, send pipeline, itinerary viewer, speech bridge)
  and of the JSON semantics the client relies on (JSON.parse / trim /
  split, modelled on lists of characters).
-/

set_option maxRecDepth 16384

namespace Chatbot

/-! ## Character classes

`jsonWs` is the whitespace accepted by `JSON.parse` between tokens.
`jsWsChar` is the larger whitespace class stripped by JavaScript
`String.prototype.trim` (WhiteSpace plus LineTerminator code points). -/

def jsonWs (c : Char) : Bool :=
  c == '\t' || c == '\n' || c == '\r' || c == ' '

def skipWs (s : List Char) : List Char := s.dropWhile jsonWs

def jsWsChar (c : Char) : Bool :=
  jsonWs c ||
  c == Char.ofNat 0x0B || c == Char.ofNat 0x0C ||
  c == Char.ofNat 0xA0 || c == Char.ofNat 0xFEFF ||
  c == Char.ofNat 0x1680 ||
  (0x2000 ≤ c.toNat && c.toNat ≤ 0x200A) ||
  c == Char.ofNat 0x2028 || c == Char.ofNat 0x2029 ||
  c == Char.ofNat 0x202F || c == Char.ofNat 0x205F || c == Char.ofNat 0x3000

/-- JavaScript `s.trim()` on a character list. -/
def trimJS (s : List Char) : List Char :=
  ((s.dropWhile jsWsChar).reverse.dropWhile jsWsChar).reverse

def isDigitC (c : Char) : Bool := '0' ≤ c && c ≤ '9'

def hexVal (c : Char) : Option Nat :=
  let n := c.toNat
  if 48 ≤ n && n ≤ 57 then some (n - 48)
  else if 97 ≤ n && n ≤ 102 then some (n - 87)
  else if 65 ≤ n && n ≤ 70 then some (n - 55)
  else none

/-! ## JSON values

Numbers are kept as the pair (mantissa, decimal exponent) read off the
token, representing `m * 10 ^ e`; the client never computes with the
numbers, it only checks presence and interpolates them into strings. -/

inductive Json where
  | null
  | bool (b : Bool)
  | num (m : Int) (e : Int)
  | str (s : String)
  | arr (items : List Json)
  | obj (fields : List (String × Json))

/-! ## JSON.parse, modelled as a fuel-indexed recursive-descent parser -/

/-- Consume a run of decimal digits, extending an accumulated value and
digit count. -/
def takeDigits (acc : Nat) (cnt : Nat) : List Char → Nat × Nat × List Char
  | [] => (acc, cnt, [])
  | c :: r =>
    if isDigitC c then takeDigits (acc * 10 + (c.toNat - '0'.toNat)) (cnt + 1) r
    else (acc, cnt, c :: r)

/-- The optional fraction of a JSON number: a dot followed by at least
one digit extends the mantissa and lowers the exponent; a dot not
followed by a digit is left unconsumed (the overall parse then fails at
a later stage, as in `JSON.parse`). -/
def parseFrac (iv : Nat) : List Char → Nat × Int × List Char
  | '.' :: c :: r =>
    if isDigitC c then
      let t := takeDigits (c.toNat - '0'.toNat) 1 r
      (iv * 10 ^ t.2.1 + t.1, -(t.2.1 : Int), t.2.2)
    else (iv, 0, '.' :: c :: r)
  | s => (iv, 0, s)

def expDigits (sign : Int) (c : Char) (r : List Char) : Int × List Char :=
  let t := takeDigits (c.toNat - '0'.toNat) 1 r
  (sign * (t.1 : Int), t.2.2)

/-- The optional exponent of a JSON number: `e`/`E`, an optional sign,
at least one digit; anything else is left unconsumed. -/
def parseExp : List Char → Int × List Char
  | e :: '+' :: c :: r =>
    if (e == 'e' || e == 'E') && isDigitC c then expDigits 1 c r
    else (0, e :: '+' :: c :: r)
  | e :: '-' :: c :: r =>
    if (e == 'e' || e == 'E') && isDigitC c then expDigits (-1) c r
    else (0, e :: '-' :: c :: r)
  | e :: c :: r =>
    if (e == 'e' || e == 'E') && isDigitC c then expDigits 1 c r
    else (0, e :: c :: r)
  | s => (0, s)

/-- Fraction and exponent part of a JSON number, after the integer part
`iv`. -/
def parseNumTail (neg : Bool) (iv : Nat) (s : List Char) : Json × List Char :=
  let fr := parseFrac iv s
  let ex := parseExp fr.2.2
  let m : Int := if neg then -(fr.1 : Int) else (fr.1 : Int)
  (Json.num m (fr.2.1 + ex.1), ex.2)

/-- A JSON number token: an optional minus sign, an integer part that
is `0` or a digit run without a leading zero, then the optional
fraction and exponent. -/
def parseNumber : List Char → Option (Json × List Char)
  | '-' :: '0' :: r => some (parseNumTail true 0 r)
  | '-' :: c :: r =>
    if isDigitC c then
      let t := takeDigits (c.toNat - '0'.toNat) 1 r
      some (parseNumTail true t.1 t.2.2)
    else none
  | '0' :: r => some (parseNumTail false 0 r)
  | c :: r =>
    if isDigitC c then
      let t := takeDigits (c.toNat - '0'.toNat) 1 r
      some (parseNumTail false t.1 t.2.2)
    else none
  | [] => none

def isHighSurr (n : Nat) : Bool := 0xD800 ≤ n && n ≤ 0xDBFF
def isLowSurr (n : Nat) : Bool := 0xDC00 ≤ n && n ≤ 0xDFFF

def surrogatePair (hi lo : Nat) : Nat :=
  (hi - 0xD800) * 0x400 + (lo - 0xDC00) + 0x10000

def escChar : Char → Option Char
  | 'b' => some (Char.ofNat 8)
  | 'f' => some (Char.ofNat 12)
  | 'n' => some '\n'
  | 'r' => some '\r'
  | 't' => some '\t'
  | '"' => some '"'
  | '\\' => some '\\'
  | '/' => some '/'
  | _ => none

def hex4 (a b c d : Char) : Option Nat :=
  match hexVal a, hexVal b, hexVal c, hexVal d with
  | some x, some y, some z, some w => some (((x * 16 + y) * 16 + z) * 16 + w)
  | _, _, _, _ => none

/-- Body of a JSON string literal as UTF-16 code units, after the
opening quote.  Raw control characters are rejected and escapes are
decoded, exactly as `JSON.parse` builds a JavaScript string. -/
def parseStringRaw : List Char → Option (List Nat × List Char)
  | [] => none
  | '"' :: r => some ([], r)
  | '\\' :: 'u' :: a :: b :: c :: d :: r =>
    match hex4 a b c d with
    | none => none
    | some n => (parseStringRaw r).map (fun p => (n :: p.1, p.2))
  | '\\' :: e :: r =>
    match escChar e with
    | some c => (parseStringRaw r).map (fun p => (c.toNat :: p.1, p.2))
    | none => none
  | c :: r =>
    if c.toNat < 0x20 then none
    else (parseStringRaw r).map (fun p => (c.toNat :: p.1, p.2))

/-- UTF-16 code units to scalar characters: surrogate pairs are
combined, an unpaired surrogate becomes U+FFFD (the closest scalar
representation available for a lone surrogate). -/
def unitsToChars : List Nat → List Char
  | [] => []
  | [n] => [if isHighSurr n || isLowSurr n then Char.ofNat 0xFFFD else Char.ofNat n]
  | n :: n2 :: rest =>
    if isHighSurr n then
      if isLowSurr n2 then Char.ofNat (surrogatePair n n2) :: unitsToChars rest
      else Char.ofNat 0xFFFD :: unitsToChars (n2 :: rest)
    else if isLowSurr n then Char.ofNat 0xFFFD :: unitsToChars (n2 :: rest)
    else Char.ofNat n :: unitsToChars (n2 :: rest)

/-- Body of a JSON string literal, after the opening quote. -/
def parseStringRest (s : List Char) : Option (List Char × List Char) :=
  (parseStringRaw s).map (fun p => (unitsToChars p.1, p.2))

/-- JavaScript object-field accumulation: a duplicate key keeps its
first position but takes the later value. -/
def insertField : List (String × Json) → String → Json → List (String × Json)
  | [], k, v => [(k, v)]
  | (k0, v0) :: fs, k, v =>
    if k0 == k then (k0, v) :: fs else (k0, v0) :: insertField fs k v

mutual

/-- A JSON value at the head of the input (no leading whitespace). -/
def parseValue : Nat → List Char → Option (Json × List Char)
  | 0, _ => none
  | f + 1, s =>
    match s with
    | 'n' :: 'u' :: 'l' :: 'l' :: r => some (Json.null, r)
    | 't' :: 'r' :: 'u' :: 'e' :: r => some (Json.bool true, r)
    | 'f' :: 'a' :: 'l' :: 's' :: 'e' :: r => some (Json.bool false, r)
    | '"' :: r => (parseStringRest r).map (fun p => (Json.str (String.mk p.1), p.2))
    | '[' :: r =>
      match skipWs r with
      | ']' :: r2 => some (Json.arr [], r2)
      | r2 => parseItems f [] r2
    | '{' :: r =>
      match skipWs r with
      | '}' :: r2 => some (Json.obj [], r2)
      | r2 => parseFields f [] r2
    | _ => parseNumber s

/-- Comma-separated array items, up to the closing bracket. -/
def parseItems : Nat → List Json → List Char → Option (Json × List Char)
  | 0, _, _ => none
  | f + 1, acc, s =>
    match parseValue f s with
    | none => none
    | some (v, r) =>
      match skipWs r with
      | ',' :: r2 => parseItems f (acc ++ [v]) (skipWs r2)
      | ']' :: r2 => some (Json.arr (acc ++ [v]), r2)
      | _ => none

/-- Comma-separated object members, up to the closing brace. -/
def parseFields : Nat → List (String × Json) → List Char → Option (Json × List Char)
  | 0, _, _ => none
  | f + 1, acc, s =>
    match s with
    | '"' :: r =>
      match parseStringRest r with
      | none => none
      | some (k, r1) =>
        match skipWs r1 with
        | ':' :: r2 =>
          match parseValue f (skipWs r2) with
          | none => none
          | some (v, r3) =>
            match skipWs r3 with
            | ',' :: r4 => parseFields f (insertField acc (String.mk k) v) (skipWs r4)
            | '}' :: r4 => some (Json.obj (insertField acc (String.mk k) v), r4)
            | _ => none
        | _ => none
    | _ => none

end

/-- The number of non-whitespace characters: every unit of parser fuel
is paid for by one of them (brackets, braces, commas and value
characters), so `2 * countNonWs s + 2` dominates the recursion depth,
and the bound is invariant under whitespace-only edits of the input. -/
def countNonWs (s : List Char) : Nat := (s.filter (fun c => !jsonWs c)).length

/-- `JSON.parse`: a single value surrounded only by whitespace. -/
def parseJson (s : List Char) : Option Json :=
  match parseValue (2 * countNonWs s + 2) (skipWs s) with
  | some (v, rest) => if rest.all jsonWs then some v else none
  | none => none

def parseJsonStr (s : String) : Option Json := parseJson s.data

/-! ## stripCodeFence

The client strips a markdown code fence before parsing: if the trimmed
text starts and ends with three backticks it drops the first and last
lines (split on `/\r?\n/`, shift, pop, join with a newline, trim);
otherwise it searches for the first fenced block of the form
three-backticks, optional case-insensitive json tag, newline, lazy
body, newline, three-backticks, and returns the body trimmed;
otherwise it returns the trimmed input. -/

def consLine (c : Char) : List (List Char) → List (List Char)
  | l :: ls => (c :: l) :: ls
  | [] => [[c]]

/-- JavaScript `split(/\r?\n/)`. -/
def splitCRLF : List Char → List (List Char)
  | [] => [[]]
  | '\r' :: '\n' :: r => [] :: splitCRLF r
  | '\n' :: r => [] :: splitCRLF r
  | c :: r => consLine c (splitCRLF r)

/-- JavaScript `lines.flatten("\n")`. -/
def joinNL : List (List Char) → List Char
  | [] => []
  | [l] => l
  | l :: ls => l ++ '\n' :: joinNL ls

/-- The effect of `split(/\r?\n/)` followed by `join("\n")` on inner
text: every CR-LF pair collapses to LF (lone CRs survive). -/
def normEOL : List Char → List Char
  | [] => []
  | '\r' :: '\n' :: r => '\n' :: normEOL r
  | c :: r => c :: normEOL r

/-- The lines of a text that is followed by a further `\n` separator:
like `splitCRLF` but a final lone CR is absorbed into the separator. -/
def linesChomp : List Char → List (List Char)
  | [] => [[]]
  | ['\r'] => [[]]
  | '\r' :: '\n' :: r => [] :: linesChomp r
  | '\n' :: r => [] :: linesChomp r
  | c :: r => consLine c (linesChomp r)

/-- `normEOL` for a text that is followed by a further `\n` separator:
a final lone CR is absorbed. -/
def normEOLChomp : List Char → List Char
  | [] => []
  | ['\r'] => []
  | '\r' :: '\n' :: r => '\n' :: normEOLChomp r
  | c :: r => c :: normEOLChomp r

def fence3 : List Char := ['`', '`', '`']

def fenceHeaderJson : List Char := ['`', '`', '`', 'j', 's', 'o', 'n', '\n']

/-- The fenced wrapper of claim C6: three backticks, `json`, a newline,
the payload, a newline, three backticks. -/
def wrapJsonFence (J : List Char) : List Char :=
  fenceHeaderJson ++ J ++ '\n' :: fence3

/-- `t` is obtained from `s` by deleting some carriage returns, each of
which is immediately followed by a line feed in `s` (the deletions the
`split(/\r?\n/)` / `join("\n")` round trip performs). -/
inductive CRDel : List Char → List Char → Prop
  | nil : CRDel [] []
  | keep (c : Char) {s t : List Char} : CRDel s t → CRDel (c :: s) (c :: t)
  | drop {s t : List Char} : CRDel ('\n' :: s) t → CRDel ('\r' :: '\n' :: s) t

def lcChar (c : Char) : Char :=
  if 'A' ≤ c && c ≤ 'Z' then Char.ofNat (c.toNat + 32) else c

def isJsonTag (a b c d : Char) : Bool :=
  lcChar a == 'j' && lcChar b == 's' && lcChar c == 'o' && lcChar d == 'n'

/-- The lazy capture `([\s\S]*?)` of the fence regex: the shortest
prefix that is followed by a newline and three backticks. -/
def fenceContent : List Char → Option (List Char)
  | [] => none
  | '\n' :: '`' :: '`' :: '`' :: _ => some []
  | c :: r => (fenceContent r).map (c :: ·)

/-- A match of the fence regex anchored at the current position: three
backticks, an optional case-insensitive `json` tag (tried greedily
first), a newline, then the lazy body. -/
def fenceAt : List Char → Option (List Char)
  | '`' :: '`' :: '`' :: rest =>
    (match rest with
     | a :: b :: c :: d :: '\n' :: r =>
       if isJsonTag a b c d then fenceContent r
       else match rest with
            | '\n' :: r2 => fenceContent r2
            | _ => none
     | _ =>
       match rest with
       | '\n' :: r2 => fenceContent r2
       | _ => none)
  | _ => none

/-- Leftmost match of the fence regex (JavaScript `String.match`). -/
def fenceSearch : List Char → Option (List Char)
  | [] => none
  | s@(_ :: r) =>
    match fenceAt s with
    | some content => some content
    | none => fenceSearch r

def stripCodeFence (s : List Char) : List Char :=
  let t := trimJS s
  if fence3.isPrefixOf t && fence3.isSuffixOf t then
    trimJS (joinNL (((splitCRLF t).drop 1).dropLast))
  else
    match fenceSearch t with
    | some content => trimJS content
    | none => t

/-! ## The payload normalizer: `isItinerary` and `safeParseItinerary` -/

/-- JavaScript truthiness of a parsed JSON value (`JSON.parse` never
produces `NaN` or `-0` with a nonzero mantissa). -/
def truthy : Json → Bool
  | Json.null => false
  | Json.bool b => b
  | Json.num m _ => m != 0
  | Json.str s => s != ""
  | Json.arr _ => true
  | Json.obj _ => true

/-- `typeof x === "object"` for a parsed JSON value (`null`, arrays and
plain objects). -/
def typeofObject : Json → Bool
  | Json.null => true
  | Json.arr _ => true
  | Json.obj _ => true
  | _ => false

/-- Property access `x.k`: `none` models `undefined`. -/
def jsGet : Json → String → Option Json
  | Json.obj fs, k => fs.lookup k
  | _, _ => none

def truthyOpt : Option Json → Bool
  | none => false
  | some v => truthy v

/-- `Array.isArray(x.k)` (also false when the property is absent). -/
def isArrayOpt : Option Json → Bool
  | some (Json.arr _) => true
  | _ => false

/-- The structural validator: a truthy object with truthy `meta` and
`itinerary` properties whose `itinerary` is an array. -/
def isItinerary (x : Json) : Bool :=
  if !truthy x || !typeofObject x then false
  else if !truthyOpt (jsGet x "meta") || !truthyOpt (jsGet x "itinerary") then false
  else if !isArrayOpt (jsGet x "itinerary") then false
  else true

/-- The normalizer: strip an optional fence, `JSON.parse`, validate;
`none` models the `null` returned on validation failure or on any parse
exception. -/
def safeParseItinerary (raw : List Char) : Option Json :=
  match parseJson (stripCodeFence raw) with
  | some v => if isItinerary v then some v else none
  | none => none

/-! ## Number and string rendering

`numToString` renders a parsed JSON number the way JavaScript prints
it for the token shapes the client handles (integers and short
decimals; exotic exponent ranges would print in exponent notation in
JavaScript and are not needed by any claim). -/

def numToString (m e : Int) : String :=
  if 0 ≤ e then toString (m * 10 ^ e.toNat)
  else
    let k := (-e).toNat
    let sign := if m < 0 then "-" else ""
    let ds := (toString m.natAbs).data
    let pad := if ds.length ≤ k then List.replicate (k + 1 - ds.length) '0' ++ ds else ds
    let ip := pad.take (pad.length - k)
    let fp := ((pad.drop (pad.length - k)).reverse.dropWhile (· == '0')).reverse
    if fp.isEmpty then sign ++ String.mk ip
    else sign ++ String.mk ip ++ "." ++ String.mk fp

mutual

/-- JavaScript `String(v)` coercion of a parsed JSON value. -/
def jsCoerceString : Json → String
  | Json.null => "null"
  | Json.bool true => "true"
  | Json.bool false => "false"
  | Json.num m e => numToString m e
  | Json.str s => s
  | Json.arr xs => jsCoerceItems xs
  | Json.obj _ => "[object Object]"

/-- `Array.prototype.toString`: elements joined with commas, `null`
elements becoming empty. -/
def jsCoerceItems : List Json → String
  | [] => ""
  | [Json.null] => ""
  | [x] => jsCoerceString x
  | Json.null :: xs => "," ++ jsCoerceItems xs
  | x :: xs => jsCoerceString x ++ "," ++ jsCoerceItems xs

end

def hexDigitLower (n : Nat) : Char :=
  if n < 10 then Char.ofNat (48 + n) else Char.ofNat (87 + n)

def escapeOne (c : Char) : List Char :=
  if c == '"' then ['\\', '"']
  else if c == '\\' then ['\\', '\\']
  else if c == Char.ofNat 8 then ['\\', 'b']
  else if c == Char.ofNat 12 then ['\\', 'f']
  else if c == '\n' then ['\\', 'n']
  else if c == '\r' then ['\\', 'r']
  else if c == '\t' then ['\\', 't']
  else if c.toNat < 0x20 then
    ['\\', 'u', '0', '0', hexDigitLower (c.toNat / 16), hexDigitLower (c.toNat % 16)]
  else [c]

def quoteJsonString (s : String) : String :=
  "\"" ++ String.mk (s.data.map escapeOne).flatten ++ "\""

def indentN (d : Nat) : String := String.mk (List.replicate (2 * d) ' ')

mutual

/-- `JSON.stringify(v, null, 2)` at nesting depth `d`. -/
def stringifyAux : Nat → Json → String
  | _, Json.null => "null"
  | _, Json.bool true => "true"
  | _, Json.bool false => "false"
  | _, Json.num m e => numToString m e
  | _, Json.str s => quoteJsonString s
  | _, Json.arr [] => "[]"
  | d, Json.arr (x :: xs) =>
    "[\n" ++ stringifyItems (d + 1) (x :: xs) ++ "\n" ++ indentN d ++ "]"
  | _, Json.obj [] => "\x7b\x7d"
  | d, Json.obj (f :: fs) =>
    "\x7b\n" ++ stringifyFields (d + 1) (f :: fs) ++ "\n" ++ indentN d ++ "\x7d"

def stringifyItems : Nat → List Json → String
  | _, [] => ""
  | d, [x] => indentN d ++ stringifyAux d x
  | d, x :: xs => indentN d ++ stringifyAux d x ++ ",\n" ++ stringifyItems d xs

def stringifyFields : Nat → List (String × Json) → String
  | _, [] => ""
  | d, [(k, v)] => indentN d ++ quoteJsonString k ++ ": " ++ stringifyAux d v
  | d, (k, v) :: fs =>
    indentN d ++ quoteJsonString k ++ ": " ++ stringifyAux d v ++ ",\n" ++
      stringifyFields d fs

end

def stringify2 (v : Json) : String := stringifyAux 0 v

/-! ## The send pipeline -/

inductive Role where
  | user
  | assistant
  | error
deriving DecidableEq

structure ChatMessage where
  role : Role
  content : String
  itinerary : Option Json

/-- The page state the send operation touches (`crypto.randomUUID`
message ids are not observable by any claim and are omitted). -/
structure ChatState where
  messages : List ChatMessage
  message : String
  loading : Bool

/-- The synchronous prefix of `send`: guard, optimistic append of the
user message, input clearing, loading flag; the returned option is the
body of the single outbound request (`none` when the send is
rejected). -/
def sendStart (st : ChatState) (textOverride : Option String) :
    ChatState × Option String :=
  let text := String.mk (trimJS (textOverride.getD st.message).data)
  if text == "" || st.loading then (st, none)
  else
    ({ messages := st.messages ++ [{ role := Role.user, content := text, itinerary := none }],
       message := "", loading := true },
     some text)

structure HttpResp where
  ok : Bool
  status : Nat
  bodyText : String

/-- A settled fetch: a response, or a rejection whose `Error` message
is `msg`. -/
inductive FetchResult where
  | success (resp : HttpResp)
  | failure (msg : String)

/-- `data?.output ?? data`. -/
def outputOf (data : Json) : Json :=
  match jsGet data "output" with
  | some Json.null => data
  | some v => v
  | none => data

/-- The message of the error thrown on a non-ok status:
`data?.error ?? "Request failed (status)"`. -/
def errorText (data : Json) (status : Nat) : String :=
  match jsGet data "error" with
  | some Json.null => "Request failed (" ++ toString status ++ ")"
  | some v => jsCoerceString v
  | none => "Request failed (" ++ toString status ++ ")"

def itineraryPlaceholder : String := "Here’s your itinerary ✨"

/-- Interpretation of the backend `output` (string or object) into the
assistant chat message. -/
def assistantMsgFor (output : Json) : ChatMessage :=
  let p : String × Option Json :=
    match output with
    | Json.str s =>
      match safeParseItinerary s.data with
      | some it => ("", some it)
      | none => (String.mk (trimJS s.data), none)
    | Json.arr xs =>
      if isItinerary (Json.arr xs) then ("", some (Json.arr xs))
      else (stringify2 (Json.arr xs), none)
    | Json.obj fs =>
      if isItinerary (Json.obj fs) then ("", some (Json.obj fs))
      else (stringify2 (Json.obj fs), none)
    | _ => ("", none)
  { role := Role.assistant
    content := if p.1 != "" then p.1 else if p.2.isSome then itineraryPlaceholder else ""
    itinerary := p.2 }

/-- Response handling inside the `try`: `res.json()` defaulting to an
empty object on a parse failure, the non-ok throw (caught below as an
error message), and the output interpretation. -/
def processSuccess (resp : HttpResp) : ChatMessage :=
  let data := (parseJson resp.bodyText.data).getD (Json.obj [])
  if !resp.ok then
    { role := Role.error, content := "Error: " ++ errorText data resp.status,
      itinerary := none }
  else assistantMsgFor (outputOf data)

/-- The whole settlement: every fetch outcome (including rejections and
the re-thrown non-ok error) yields exactly one chat message; this
function is total, modelling that no exception escapes the handler. -/
def processSettled : FetchResult → ChatMessage
  | FetchResult.success resp => processSuccess resp
  | FetchResult.failure msg =>
    { role := Role.error, content := "Error: " ++ msg, itinerary := none }

/-- The state after settlement (`finally` clears the loading flag). -/
def sendSettle (st : ChatState) (fr : FetchResult) : ChatState :=
  { st with messages := st.messages ++ [processSettled fr], loading := false }

/-! ## Map links -/

def uriUnreserved (c : Char) : Bool :=
  ('A' ≤ c && c ≤ 'Z') || ('a' ≤ c && c ≤ 'z') || ('0' ≤ c && c ≤ '9') ||
  c == '-' || c == '_' || c == '.' || c == '!' || c == '~' || c == '*' ||
  c == Char.ofNat 39 || c == '(' || c == ')'

def utf8Bytes (c : Char) : List Nat :=
  let n := c.toNat
  if n < 0x80 then [n]
  else if n < 0x800 then [0xC0 + n / 0x40, 0x80 + n % 0x40]
  else if n < 0x10000 then
    [0xE0 + n / 0x1000, 0x80 + (n / 0x40) % 0x40, 0x80 + n % 0x40]
  else
    [0xF0 + n / 0x40000, 0x80 + (n / 0x1000) % 0x40, 0x80 + (n / 0x40) % 0x40,
     0x80 + n % 0x40]

def hexDigitUpper (n : Nat) : Char :=
  if n < 10 then Char.ofNat (48 + n) else Char.ofNat (55 + n)

def pctByte (b : Nat) : List Char := ['%', hexDigitUpper (b / 16), hexDigitUpper (b % 16)]

def encodeURIComponent (s : List Char) : List Char :=
  (s.map (fun c => if uriUnreserved c then [c] else ((utf8Bytes c).map pctByte).flatten)).flatten

/-- An activity location as typed in the client
(`Activity["location"]`); numbers carry the (mantissa, exponent)
representation of the parsed JSON number. -/
structure JsLocation where
  name : Option String
  address : Option String
  lat : Option (Int × Int)
  lon : Option (Int × Int)
  place_id : Option String

def coordLink (lat lon : Int × Int) : String :=
  "https://maps.google.com/?q=" ++ numToString lat.1 lat.2 ++ "," ++
    numToString lon.1 lon.2

def searchLink (q : String) : String :=
  "https://www.google.com/maps/search/?api=1&query=" ++
    String.mk (encodeURIComponent q.data)

def googleMapsAddr : Option String → Option String
  | some a => if a != "" then some (searchLink a) else none
  | none => none

/-- `googleMapsLink`: coordinates first (`!= null` on both), then a
truthy `name`, then a truthy `address`, else no link. -/
def googleMapsLink : Option JsLocation → Option String
  | none => none
  | some l =>
    match l.lat, l.lon with
    | some la, some lo => some (coordLink la lo)
    | _, _ =>
      match l.name with
      | some n => if n != "" then some (searchLink n) else googleMapsAddr l.address
      | none => googleMapsAddr l.address

/-- Modelled from the spec wording of claim C7: precedence decided by
plain field presence ("if name is present it is the name-based search
link"), for comparison with the code's truthiness test. -/
def googleMapsLinkPresence : Option JsLocation → Option String
  | none => none
  | some l =>
    match l.lat, l.lon with
    | some la, some lo => some (coordLink la lo)
    | _, _ =>
      match l.name with
      | some n => some (searchLink n)
      | none =>
        match l.address with
        | some a => some (searchLink a)
        | none => none

/-! ## Itinerary viewer: day navigation -/

/-- `const days = data.itinerary || []` (the viewer only receives
payloads accepted by `isItinerary`, whose `itinerary` is an array). -/
def viewDays (data : Json) : List Json :=
  match jsGet data "itinerary" with
  | some (Json.arr xs) => xs
  | _ => []

inductive DayNav where
  | prev
  | next

/-- `useState(0)`. -/
def dayIndexInit : Int := 0

/-- The two click handlers: `Math.max(0, i - 1)` and
`Math.min(days.length - 1, i + 1)`. -/
def navStep (dayCount : Nat) (i : Int) : DayNav → Int
  | DayNav.prev => max 0 (i - 1)
  | DayNav.next => min ((dayCount : Int) - 1) (i + 1)

/-! ## Activity image carousel -/

/-- `(n % len + len) % len` with JavaScript remainder semantics
(`Int.tmod` truncates toward zero like `%` on numbers), `0` for an
empty gallery. -/
def safeIndex (len : Nat) (n : Int) : Int :=
  if len == 0 then 0 else (n.tmod (len : Int) + (len : Int)).tmod (len : Int)

def imageIndexInit : Int := 0

def prevImage (len : Nat) (i : Int) : Int := safeIndex len (i - 1)

def nextImage (len : Nat) (i : Int) : Int := safeIndex len (i + 1)

/-- `hasImages ? imgs[safeIndex(idx)] : undefined`. -/
def currentImage (imgs : List String) (idx : Int) : Option String :=
  if imgs.length == 0 then none
  else imgs[(safeIndex imgs.length idx).toNat]?

/-- The placeholder icon branch renders exactly when the gallery is
empty. -/
def showsPlaceholder (imgs : List String) : Bool := imgs.length == 0

/-! ## Speech bridge: the auto-read scheduler as an event system

State components are the refs and state the handlers read or write:
`listening` (`listeningRef`), `speaking` (the synthesis engine),
`pendingSpeak` (`pendingSpeakRef` holds a scheduled `scheduleSpeak`
timer), `readDelayAfterMic` (`readDelayAfterMicRef`), `autoRead`.
`schedulerSpoke` counts the times the scheduled auto-read actually
started speech (a history variable, written only where `scheduleSpeak`
calls `speak`). -/

structure SpeechState where
  listening : Bool
  speaking : Bool
  pendingSpeak : Bool
  readDelayAfterMic : Bool
  autoRead : Bool
  schedulerSpoke : Nat

/-- The browser events that drive the speech bridge. -/
inductive SpeechEvent where
  /-- A send settles with a nonempty assistant text while auto-read is
  enabled: `scheduleSpeak` is scheduled (`pendingSpeakRef` set). -/
  | replyArrives
  /-- The `scheduleSpeak` timer fires: if recognition is listening it
  re-arms itself after 250 ms, otherwise it speaks. -/
  | pendingTimerFires
  /-- `rec.onend`: listening stops, any pending scheduled speech is
  cleared, and the post-mic cool-down flag is set. -/
  | recognitionEnds
  /-- `rec.onerror`: listening stops. -/
  | recognitionErrors
  /-- `toggleMic` while not listening: a pending scheduled speech is
  cleared, ongoing speech is cancelled, recognition starts. -/
  | micStart
  /-- `toggleMic` while listening: ongoing speech is cancelled and the
  recognizer is asked to stop (its `onend` arrives as a later event). -/
  | micStop
  /-- The current utterance ends. -/
  | ttsEnds
  /-- The auto-read checkbox is enabled: the effect on `autoRead`
  immediately reads the visible transcript aloud (the chat always shows
  at least the welcome message). -/
  | autoReadOn
  /-- The auto-read checkbox is disabled: pending scheduled speech is
  cleared and speech is cancelled. -/
  | autoReadOff

def speechStep (st : SpeechState) : SpeechEvent → SpeechState
  | SpeechEvent.replyArrives =>
    if st.autoRead then { st with pendingSpeak := true } else st
  | SpeechEvent.pendingTimerFires =>
    if st.pendingSpeak then
      if st.listening then st
      else
        { st with pendingSpeak := false, speaking := true,
                  schedulerSpoke := st.schedulerSpoke + 1 }
    else st
  | SpeechEvent.recognitionEnds =>
    { st with listening := false, pendingSpeak := false, readDelayAfterMic := true }
  | SpeechEvent.recognitionErrors => { st with listening := false }
  | SpeechEvent.micStart =>
    if st.listening then st
    else { st with pendingSpeak := false, speaking := false, listening := true }
  | SpeechEvent.micStop =>
    if st.listening then { st with speaking := false } else st
  | SpeechEvent.ttsEnds => { st with speaking := false }
  | SpeechEvent.autoReadOn => { st with autoRead := true, speaking := true }
  | SpeechEvent.autoReadOff =>
    { st with autoRead := false, pendingSpeak := false, speaking := false }

def speechRun (st : SpeechState) (evs : List SpeechEvent) : SpeechState :=
  evs.foldl speechStep st

/-- The scheduled-read guarantee asserted by the spec: once an
auto-read is scheduled, no event drops it without the scheduler having
spoken. -/
def scheduledReadNeverDropped : Prop :=
  ∀ (st : SpeechState) (ev : SpeechEvent), st.pendingSpeak = true →
    (speechStep st ev).pendingSpeak = true ∨
    (speechStep st ev).schedulerSpoke = st.schedulerSpoke + 1

/-- Along a run, every increment of `schedulerSpoke` happens in a state
where recognition is inactive (before and after the step). -/
def schedulerFiresSafely : SpeechState → List SpeechEvent → Prop
  | _, [] => True
  | st, ev :: evs =>
    ((speechStep st ev).schedulerSpoke ≠ st.schedulerSpoke →
      st.listening = false ∧ (speechStep st ev).listening = false) ∧
    schedulerFiresSafely (speechStep st ev) evs

/-! ## Concrete fixtures used by the theorems below -/

/-- The fenced scenario payload of claim C2. -/
def romeRaw : String :=
  "```json\n\x7b\"meta\":\x7b\"destination\":\"Rome\",\"start_date\":\"2025-06-01\",\"end_date\":\"2025-06-03\",\"timezone\":\"Europe/Rome\",\"days\":2\x7d,\"itinerary\":[\x7b\"day\":1,\"date\":\"2025-06-01\",\"activities\":[\x7b\"activity_id\":\"a1\",\"title\":\"Colosseum\",\"time\":\"09:00\"\x7d]\x7d]\x7d\n```"

def romeActivity : Json :=
  Json.obj [("activity_id", Json.str "a1"), ("title", Json.str "Colosseum"),
            ("time", Json.str "09:00")]

def romeDay1 : Json :=
  Json.obj [("day", Json.num 1 0), ("date", Json.str "2025-06-01"),
            ("activities", Json.arr [romeActivity])]

def romeItinerary : Json :=
  Json.obj
    [("meta", Json.obj
        [("destination", Json.str "Rome"), ("start_date", Json.str "2025-06-01"),
         ("end_date", Json.str "2025-06-03"), ("timezone", Json.str "Europe/Rome"),
         ("days", Json.num 2 0)]),
     ("itinerary", Json.arr [romeDay1])]

/-- A location carrying every field. -/
def fullLoc : JsLocation :=
  { name := some "N", address := some "A", lat := some (1, 0), lon := some (2, 0),
    place_id := none }

/-- A location with an empty (but present) name and a present
address. -/
def emptyNameLoc : JsLocation :=
  { name := some "", address := some "A", lat := none, lon := none, place_id := none }

/-- A location with only name and address. -/
def nameAddrLoc : JsLocation :=
  { name := some "N", address := some "A", lat := none, lon := none, place_id := none }

/-- A location with no fields at all. -/
def emptyLoc : JsLocation :=
  { name := none, address := none, lat := none, lon := none, place_id := none }

/-- A speech state with recognition active and an auto-read scheduled. -/
def c4Pending : SpeechState :=
  { listening := true, speaking := false, pendingSpeak := true,
    readDelayAfterMic := false, autoRead := true, schedulerSpoke := 0 }

/-! # Theorems -/

section Theorems

/-! ## Arithmetic helpers for the carousel index -/

theorem tmod_neg_left (a b : Int) : (-a).tmod b = -(a.tmod b) := by
  rw [Int.tmod_def, Int.tmod_def, Int.neg_tdiv]
  ring

theorem tmod_shift_emod (n len : Int) (h : 0 < len) :
    ((n.tmod len) + len).tmod len = n % len := by
  have hub : n.tmod len < len := Int.tmod_lt_of_pos n h
  have hlb : -len < n.tmod len := by
    rcases le_or_lt 0 n with hn | hn
    · have := Int.tmod_nonneg len hn
      omega
    · have h4 : (-n).tmod len = -(n.tmod len) := tmod_neg_left n len
      have h5 : 0 ≤ (-n).tmod len := Int.tmod_nonneg len (by omega)
      have h6 : (-n).tmod len < len := Int.tmod_lt_of_pos (-n) h
      omega
  have h0 : (0 : Int) ≤ n.tmod len + len := by omega
  rw [Int.tmod_eq_emod h0 (by omega)]
  have h1 := Int.add_mul_emod_self_left (n.tmod len) len 1
  rw [mul_one] at h1
  rw [h1]
  conv_rhs => rw [← Int.tmod_add_tdiv n len]
  rw [Int.add_mul_emod_self_left]

theorem safeIndex_eq_emod (len : Nat) (n : Int) (h : 0 < len) :
    safeIndex len n = n % (len : Int) := by
  unfold safeIndex
  rw [if_neg (by simpa using Nat.pos_iff_ne_zero.mp h)]
  exact tmod_shift_emod n len (by exact_mod_cast h)

theorem safeIndex_bounds (len : Nat) (n : Int) (h : 0 < len) :
    0 ≤ safeIndex len n ∧ safeIndex len n < (len : Int) := by
  rw [safeIndex_eq_emod len n h]
  have hl : (0 : Int) < (len : Int) := by exact_mod_cast h
  exact ⟨Int.emod_nonneg n (by omega), Int.emod_lt_of_pos n hl⟩

/-- C9: for a nonempty gallery of length N the displayed carousel index
wraps circularly: previous from 0 gives N-1, next from N-1 gives 0, and
the displayed index always lies in [0, N-1], so the image lookup always
succeeds; an empty gallery performs no lookup and shows the placeholder
instead. -/
theorem c9_carousel_wraps (imgs : List String) (h : 0 < imgs.length) :
    prevImage imgs.length 0 = (imgs.length : Int) - 1 ∧
    nextImage imgs.length ((imgs.length : Int) - 1) = 0 ∧
    (∀ i : Int, 0 ≤ safeIndex imgs.length i ∧ safeIndex imgs.length i < (imgs.length : Int)) ∧
    (∀ i : Int, (currentImage imgs i).isSome = true) ∧
    (∀ i : Int, currentImage [] i = none) ∧
    showsPlaceholder [] = true ∧ showsPlaceholder imgs = false := by
  have hl : (0 : Int) < (imgs.length : Int) := by exact_mod_cast h
  refine ⟨?_, ?_, fun i => safeIndex_bounds _ _ h, fun i => ?_, fun i => rfl, rfl, ?_⟩
  · unfold prevImage
    rw [safeIndex_eq_emod _ _ h]
    have h1 : ((0 : Int) - 1) % (imgs.length : Int) =
        ((imgs.length : Int) - 1 + (imgs.length : Int) * (-1)) % (imgs.length : Int) := by
      ring_nf
    rw [h1, Int.add_mul_emod_self_left]
    exact Int.emod_eq_of_lt (by omega) (by omega)
  · unfold nextImage
    rw [safeIndex_eq_emod _ _ h]
    simp
  · unfold currentImage
    rw [if_neg (by simpa using Nat.pos_iff_ne_zero.mp h)]
    have hb := safeIndex_bounds imgs.length i h
    have : (safeIndex imgs.length i).toNat < imgs.length := by omega
    simp [List.getElem?_eq_getElem this]
  · have hne : imgs.length ≠ 0 := by omega
    simp [showsPlaceholder, hne]

/-- C8: for an itinerary with at least one day, the viewer's day index
starts at 0 and under every sequence of navigation clicks stays within
[0, D-1]; previous at 0 and next at D-1 are no-ops, and elsewhere
previous and next move by exactly one. -/
theorem c8_day_navigation (data : Json) (h : 1 ≤ (viewDays data).length) :
    dayIndexInit = 0 ∧
    (∀ ops : List DayNav,
      0 ≤ ops.foldl (navStep (viewDays data).length) dayIndexInit ∧
      ops.foldl (navStep (viewDays data).length) dayIndexInit ≤
        ((viewDays data).length : Int) - 1) ∧
    navStep (viewDays data).length 0 DayNav.prev = 0 ∧
    navStep (viewDays data).length (((viewDays data).length : Int) - 1) DayNav.next =
      ((viewDays data).length : Int) - 1 ∧
    (∀ i : Int, 0 < i → navStep (viewDays data).length i DayNav.prev = i - 1) ∧
    (∀ i : Int, i < ((viewDays data).length : Int) - 1 →
      navStep (viewDays data).length i DayNav.next = i + 1) := by
  set D := (viewDays data).length with hD
  have hd : (1 : Int) ≤ (D : Int) := by exact_mod_cast h
  refine ⟨rfl, fun ops => ?_, ?_, ?_, fun i hi => ?_, fun i hi => ?_⟩
  · have key : ∀ (l : List DayNav) (i : Int), 0 ≤ i → i ≤ (D : Int) - 1 →
        0 ≤ l.foldl (navStep D) i ∧ l.foldl (navStep D) i ≤ (D : Int) - 1 := by
      intro l
      induction l with
      | nil => intro i h0 h1; exact ⟨h0, h1⟩
      | cons op rest ih =>
        intro i h0 h1
        have step : 0 ≤ navStep D i op ∧ navStep D i op ≤ (D : Int) - 1 := by
          cases op <;> simp [navStep] <;> omega
        exact ih _ step.1 step.2
    exact key ops 0 le_rfl (by omega)
  · simp [navStep]
  · simp [navStep]
  · simp [navStep]
    omega
  · simp [navStep]
    omega

/-- C7 counterexample: a location whose `name` is present but empty and
whose `address` is present produces the address-based link, while the
claimed presence-based precedence demands the name-based link. -/
theorem c7_counterexample :
    googleMapsLink (some emptyNameLoc) = some (searchLink "A") ∧
    googleMapsLinkPresence (some emptyNameLoc) = some (searchLink "") ∧
    searchLink "A" ≠ searchLink "" := by
  refine ⟨rfl, rfl, by decide⟩

/-- C7 amended: the map link follows the strict precedence order with
JavaScript truthiness tests: both coordinates present gives the
coordinate link; otherwise a present non-empty name gives the name
search link; otherwise a present non-empty address gives the address
search link; otherwise (and for a missing location) no link. -/
theorem c7_maps_link_precedence (l : JsLocation) :
    (∀ la lo, l.lat = some la → l.lon = some lo →
        googleMapsLink (some l) = some (coordLink la lo)) ∧
    ((l.lat = none ∨ l.lon = none) → ∀ n, l.name = some n → n ≠ "" →
        googleMapsLink (some l) = some (searchLink n)) ∧
    ((l.lat = none ∨ l.lon = none) → (l.name = none ∨ l.name = some "") →
      ∀ a, l.address = some a → a ≠ "" →
        googleMapsLink (some l) = some (searchLink a)) ∧
    ((l.lat = none ∨ l.lon = none) → (l.name = none ∨ l.name = some "") →
      (l.address = none ∨ l.address = some "") →
        googleMapsLink (some l) = none) ∧
    googleMapsLink none = none := by
  obtain ⟨nm, ad, la, lo, pid⟩ := l
  refine ⟨?_, ?_, ?_, ?_, rfl⟩
  · rintro la0 lo0 rfl rfl
    rfl
  · rintro hlat n rfl hn
    have hne : (n != "") = true := by simpa using hn
    rcases la with _ | la0 <;> rcases lo with _ | lo0 <;>
      first
        | (rcases hlat with h | h <;> exact Option.noConfusion h)
        | simp [googleMapsLink, hne]
  · rintro hlat hname a rfl ha
    have hne : (a != "") = true := by simpa using ha
    rcases la with _ | la0 <;> rcases lo with _ | lo0 <;>
      rcases hname with rfl | rfl <;>
        first
          | (rcases hlat with h | h <;> exact Option.noConfusion h)
          | simp [googleMapsLink, googleMapsAddr, hne]
  · rintro hlat hname haddr
    rcases la with _ | la0 <;> rcases lo with _ | lo0 <;>
      rcases hname with rfl | rfl <;>
        rcases haddr with rfl | rfl <;>
          first
            | (rcases hlat with h | h <;> exact Option.noConfusion h)
            | simp [googleMapsLink, googleMapsAddr]

/-- C3: a send whose effective input trims to empty, or issued while a
request is outstanding, changes no state and issues no request. -/
theorem c3_send_rejected (st : ChatState) (ov : Option String)
    (h : String.mk (trimJS (ov.getD st.message).data) = "" ∨ st.loading = true) :
    sendStart st ov = (st, none) := by
  unfold sendStart
  rcases h with h | h
  · simp [h]
  · simp [h]

/-- Witness for C3 at concrete inputs: a whitespace-only draft and a
loading state are both rejected. -/
theorem c3_send_rejected_witness :
    sendStart { messages := [], message := "  \n ", loading := false } none =
      ({ messages := [], message := "  \n ", loading := false }, none) ∧
    sendStart { messages := [], message := "hi", loading := true } none =
      ({ messages := [], message := "hi", loading := true }, none) := by
  constructor
  · exact c3_send_rejected _ none (Or.inl rfl)
  · exact c3_send_rejected _ none (Or.inr rfl)

/-- Witness for C9: a two-image gallery wraps at both ends. -/
theorem c9_carousel_wraps_witness :
    prevImage (["a", "b"] : List String).length 0 =
      (((["a", "b"] : List String).length : Int)) - 1 ∧
    nextImage (["a", "b"] : List String).length
      ((((["a", "b"] : List String).length : Int)) - 1) = 0 ∧
    showsPlaceholder ([] : List String) = true := by
  have h := c9_carousel_wraps ["a", "b"] (by decide)
  exact ⟨h.1, h.2.1, h.2.2.2.2.2.1⟩

/-- Witness for C8: a one-day itinerary keeps the index at 0 under a
couple of clicks. -/
theorem c8_day_navigation_witness :
    dayIndexInit = 0 ∧
    0 ≤ [DayNav.next, DayNav.prev].foldl
        (navStep (viewDays (Json.obj [("itinerary", Json.arr [Json.null])])).length)
        dayIndexInit := by
  have h := c8_day_navigation (Json.obj [("itinerary", Json.arr [Json.null])]) (by decide)
  exact ⟨h.1, (h.2.1 _).1⟩

/-- Witness for C7 (amended): all four precedence outcomes at concrete
locations. -/
theorem c7_maps_link_precedence_witness :
    googleMapsLink (some fullLoc) = some (coordLink (1, 0) (2, 0)) ∧
    googleMapsLink (some nameAddrLoc) = some (searchLink "N") ∧
    googleMapsLink (some emptyNameLoc) = some (searchLink "A") ∧
    googleMapsLink (some emptyLoc) = none := by
  refine ⟨?_, ?_, ?_, ?_⟩
  · exact (c7_maps_link_precedence fullLoc).1 (1, 0) (2, 0) rfl rfl
  · exact (c7_maps_link_precedence nameAddrLoc).2.1 (Or.inl rfl) "N" rfl (by decide)
  · exact (c7_maps_link_precedence emptyNameLoc).2.2.1 (Or.inl rfl) (Or.inr rfl) "A" rfl
      (by decide)
  · exact (c7_maps_link_precedence emptyLoc).2.2.2.1 (Or.inl rfl) (Or.inl rfl) (Or.inl rfl)

/-- C2 counterexample: for the scenario payload the assistant message
content is the fixed placeholder text, not the empty string demanded by
the claim. -/
theorem c2_counterexample :
    (assistantMsgFor (Json.str romeRaw)).content = itineraryPlaceholder ∧
    itineraryPlaceholder ≠ "" := ⟨rfl, by decide⟩

/-- C2 amended: the scenario payload yields an assistant message whose
content is the placeholder text "Here’s your itinerary ✨" and whose
itinerary is the structured payload in which day 1 holds exactly one
activity titled "Colosseum" with time "09:00". -/
theorem c2_rome_scenario :
    assistantMsgFor (Json.str romeRaw) =
      { role := Role.assistant, content := itineraryPlaceholder,
        itinerary := some romeItinerary } ∧
    jsGet romeItinerary "itinerary" = some (Json.arr [romeDay1]) ∧
    jsGet romeDay1 "day" = some (Json.num 1 0) ∧
    jsGet romeDay1 "activities" = some (Json.arr [romeActivity]) ∧
    jsGet romeActivity "title" = some (Json.str "Colosseum") ∧
    jsGet romeActivity "time" = some (Json.str "09:00") :=
  ⟨rfl, rfl, rfl, rfl, rfl, rfl⟩

/-- C5 counterexample: an ok-status response with an unparseable body
produces an assistant message, not the error-role message the claim
demands. -/
theorem c5_counterexample :
    (processSettled (FetchResult.success
        { ok := true, status := 200, bodyText := "not json" })).role = Role.assistant ∧
    Role.assistant ≠ Role.error := ⟨rfl, by decide⟩

/-- C5 amended: a send whose response has a success status but an
unparseable body appends a single assistant message rendering the
defaulted empty object ("\x7b\x7d"), the loading flag clears, and no
exception escapes (settlement is total). -/
theorem c5_unparseable_body (st : ChatState) (resp : HttpResp)
    (hok : resp.ok = true) (hbody : parseJson resp.bodyText.data = none) :
    sendSettle st (FetchResult.success resp) =
      { st with
          messages := st.messages ++
            [{ role := Role.assistant, content := "\x7b\x7d", itinerary := none }],
          loading := false } := by
  simp only [sendSettle, processSettled, processSuccess, hbody, hok]
  rfl

/-- Witness for C5 (amended) at a concrete state and response. -/
theorem c5_unparseable_body_witness :
    sendSettle { messages := [], message := "", loading := true }
        (FetchResult.success { ok := true, status := 200, bodyText := "not json" }) =
      { messages := [{ role := Role.assistant, content := "\x7b\x7d", itinerary := none }],
        message := "", loading := false } := by
  have h := c5_unparseable_body { messages := [], message := "", loading := true }
    { ok := true, status := 200, bodyText := "not json" } rfl (by rfl)
  simpa using h

/-- C10: a successful response whose JSON body lacks an `output` field
is itself taken as the output (`data?.output ?? data`), so a bare
top-level itinerary object is accepted and rendered as a structured
itinerary. -/
theorem c10_bare_itinerary (st : ChatState) (resp : HttpResp) (j : Json)
    (hok : resp.ok = true) (hparse : parseJson resp.bodyText.data = some j)
    (hout : jsGet j "output" = none) (hit : isItinerary j = true) :
    outputOf j = j ∧
    sendSettle st (FetchResult.success resp) =
      { st with
          messages := st.messages ++
            [{ role := Role.assistant, content := itineraryPlaceholder,
               itinerary := some j }],
          loading := false } := by
  have ho : outputOf j = j := by
    unfold outputOf
    rw [hout]
  refine ⟨ho, ?_⟩
  have hobj : ∃ fs, j = Json.obj fs := by
    cases j with
    | obj fs => exact ⟨fs, rfl⟩
    | null => simp [isItinerary, truthy] at hit
    | bool b => simp [isItinerary, typeofObject] at hit
    | num m e => simp [isItinerary, typeofObject] at hit
    | str s => simp [isItinerary, typeofObject] at hit
    | arr xs => simp [isItinerary, jsGet, truthyOpt] at hit
  obtain ⟨fs, rfl⟩ := hobj
  simp only [sendSettle, processSettled, processSuccess, hparse, hok]
  simp only [Option.getD, Bool.not_true, Bool.false_eq_true, if_false, ho]
  simp [assistantMsgFor, hit, itineraryPlaceholder]

/-- Witness for C10 at a concrete ok response carrying a bare itinerary
object. -/
theorem c10_bare_itinerary_witness :
    sendSettle { messages := [], message := "", loading := true }
        (FetchResult.success
          { ok := true, status := 200, bodyText := "\x7b\"meta\":1,\"itinerary\":[]\x7d" }) =
      { messages :=
          [{ role := Role.assistant, content := itineraryPlaceholder,
             itinerary := some (Json.obj [("meta", Json.num 1 0), ("itinerary", Json.arr [])]) }],
        message := "", loading := false } := by
  have h := c10_bare_itinerary { messages := [], message := "", loading := true }
    { ok := true, status := 200, bodyText := "\x7b\"meta\":1,\"itinerary\":[]\x7d" }
    (Json.obj [("meta", Json.num 1 0), ("itinerary", Json.arr [])])
    rfl (by rfl) (by rfl) (by rfl)
  simpa using h.2

/-- If a parsed value passes `isItinerary`, its `meta` property exists
(and is truthy) and its `itinerary` property is an array. -/
theorem isItinerary_fields (v : Json) (h : isItinerary v = true) :
    (∃ m, jsGet v "meta" = some m ∧ truthy m = true) ∧
    (∃ xs, jsGet v "itinerary" = some (Json.arr xs)) := by
  unfold isItinerary at h
  split at h
  · simp at h
  next hc1 =>
    split at h
    · simp at h
    next hc2 =>
      split at h
      · simp at h
      next hc3 =>
        simp only [Bool.or_eq_true, Bool.not_eq_true, not_or] at hc2 hc3
        constructor
        · cases hm : jsGet v "meta" with
          | none => rw [hm] at hc2; simp [truthyOpt] at hc2
          | some m =>
            rw [hm] at hc2
            refine ⟨m, rfl, ?_⟩
            have := hc2.1
            simp [truthyOpt] at this
            simpa using this
        · cases hi : jsGet v "itinerary" with
          | none => rw [hi] at hc3; simp [isArrayOpt] at hc3
          | some w =>
            rw [hi] at hc3
            cases w <;> simp [isArrayOpt] at hc3
            case arr xs => exact ⟨xs, rfl⟩

/-- C1: the normalizer accepts a payload only when, after optional
fence stripping and JSON parsing, it is an object carrying a `meta`
field and an array-valued `itinerary` field; a parsed payload lacking
`meta` or whose `itinerary` is not an array yields null; a parse
exception yields null; and a null normalizer result makes the pipeline
fall back to plain-text display (no structured itinerary, trimmed text
as content). -/
theorem c1_normalizer_shape (raw : List Char) :
    (∀ p, safeParseItinerary raw = some p →
      parseJson (stripCodeFence raw) = some p ∧
      (∃ m, jsGet p "meta" = some m) ∧
      (∃ xs, jsGet p "itinerary" = some (Json.arr xs))) ∧
    (∀ v, parseJson (stripCodeFence raw) = some v →
      (jsGet v "meta" = none ∨ ∀ xs, jsGet v "itinerary" ≠ some (Json.arr xs)) →
      safeParseItinerary raw = none) ∧
    (parseJson (stripCodeFence raw) = none → safeParseItinerary raw = none) ∧
    (safeParseItinerary raw = none →
      (assistantMsgFor (Json.str (String.mk raw))).itinerary = none ∧
      (assistantMsgFor (Json.str (String.mk raw))).content = String.mk (trimJS raw)) := by
  refine ⟨?_, ?_, ?_, ?_⟩
  · intro p hp
    unfold safeParseItinerary at hp
    split at hp
    next v hpj =>
      split at hp
      next hit =>
        obtain rfl : v = p := by simpa using hp
        obtain ⟨⟨m, hm, _⟩, ⟨xs, hxs⟩⟩ := isItinerary_fields v hit
        exact ⟨hpj, ⟨m, hm⟩, ⟨xs, hxs⟩⟩
      · exact absurd hp (by simp)
    next hpj => exact absurd hp (by simp)
  · intro v hv hbad
    have hit : isItinerary v = false := by
      by_contra hne
      have hit : isItinerary v = true := by
        cases h2 : isItinerary v
        · exact absurd h2 hne
        · rfl
      obtain ⟨⟨m, hm, _⟩, ⟨xs, hxs⟩⟩ := isItinerary_fields v hit
      rcases hbad with h | h
      · rw [hm] at h; exact Option.noConfusion h
      · exact h xs hxs
    simp only [safeParseItinerary, hv, hit]
    simp
  · intro h
    simp only [safeParseItinerary, h]
  · intro h
    have hdata : (String.mk raw).data = raw := rfl
    simp only [assistantMsgFor, hdata, h]
    refine ⟨by simp, ?_⟩
    by_cases he : String.mk (trimJS raw) = ""
    · simp [he]
    · simp [he]

/-- Witness for C1 at concrete payloads: an accepted itinerary object,
a rejected object lacking `meta`, and an unparseable payload. -/
theorem c1_normalizer_shape_witness :
    (∃ m, jsGet (Json.obj [("meta", Json.num 1 0), ("itinerary", Json.arr [])])
        "meta" = some m) ∧
    safeParseItinerary ("\x7b\"itinerary\":[]\x7d".data) = none ∧
    safeParseItinerary ("x".data) = none ∧
    (assistantMsgFor (Json.str (String.mk "x".data))).itinerary = none := by
  refine ⟨?_, ?_, ?_, ?_⟩
  · exact ((c1_normalizer_shape ("\x7b\"meta\":1,\"itinerary\":[]\x7d".data)).1 _
      (by rfl)).2.1
  · exact (c1_normalizer_shape _).2.1
      (Json.obj [("itinerary", Json.arr [])]) (by rfl) (Or.inl (by rfl))
  · exact (c1_normalizer_shape _).2.2.1 (by rfl)
  · exact ((c1_normalizer_shape _).2.2.2 (by rfl)).1

/-- C4 counterexample: a read scheduled while recognition is active is
dropped, unfired, by the recognition end handler, refuting "fires after
recognition has stopped and is never dropped". -/
theorem c4_counterexample :
    ¬ scheduledReadNeverDropped ∧
    c4Pending.pendingSpeak = true ∧ c4Pending.listening = true ∧
    (speechStep c4Pending SpeechEvent.recognitionEnds).pendingSpeak = false ∧
    (speechStep c4Pending SpeechEvent.recognitionEnds).schedulerSpoke = 0 ∧
    (speechStep c4Pending SpeechEvent.recognitionEnds).listening = false := by
  refine ⟨fun hnd => ?_, rfl, rfl, rfl, rfl, rfl⟩
  have := hnd c4Pending SpeechEvent.recognitionEnds rfl
  simp [speechStep, c4Pending] at this

theorem speechStep_spoke_listening (st : SpeechState) (ev : SpeechEvent)
    (h : (speechStep st ev).schedulerSpoke ≠ st.schedulerSpoke) :
    st.listening = false ∧ (speechStep st ev).listening = false ∧
    (speechStep st ev).speaking = true := by
  cases ev <;> simp [speechStep] at h ⊢ <;>
    first
      | rfl
      | (split_ifs at h ⊢ <;> simp_all)

theorem schedulerFiresSafely_all (st : SpeechState) (evs : List SpeechEvent) :
    schedulerFiresSafely st evs := by
  induction evs generalizing st with
  | nil => trivial
  | cons ev evs ih =>
    exact ⟨fun h => ⟨(speechStep_spoke_listening st ev h).1,
      (speechStep_spoke_listening st ev h).2.1⟩, ih _⟩

/-- C4 amended: a scheduled auto-read firing during active recognition
leaves the state unchanged (it stays scheduled, re-armed on the fixed
250 ms interval, nothing is spoken); firing with recognition inactive
speaks and consumes the schedule; a pending read disappears only by so
firing or through the recognition-end handler, a mic start, or
disabling auto-read, each of which cancels it; and in every run the
scheduler only ever starts speech while recognition is inactive. -/
theorem c4_scheduler_no_overlap (st : SpeechState) :
    (st.pendingSpeak = true → st.listening = true →
      speechStep st SpeechEvent.pendingTimerFires = st) ∧
    (st.pendingSpeak = true → st.listening = false →
      speechStep st SpeechEvent.pendingTimerFires =
        { st with pendingSpeak := false, speaking := true,
                  schedulerSpoke := st.schedulerSpoke + 1 }) ∧
    (∀ ev, (speechStep st ev).schedulerSpoke ≠ st.schedulerSpoke →
      st.listening = false ∧ (speechStep st ev).listening = false ∧
      (speechStep st ev).speaking = true) ∧
    (∀ ev, st.pendingSpeak = true → (speechStep st ev).pendingSpeak = false →
      (speechStep st ev).schedulerSpoke = st.schedulerSpoke + 1 ∨
      ev = SpeechEvent.recognitionEnds ∨ ev = SpeechEvent.micStart ∨
      ev = SpeechEvent.autoReadOff) ∧
    (∀ evs, schedulerFiresSafely st evs) := by
  refine ⟨?_, ?_, speechStep_spoke_listening st, ?_, schedulerFiresSafely_all st⟩
  · intro hp hl
    simp [speechStep, hp, hl]
  · intro hp hl
    simp [speechStep, hp, hl]
  · intro ev hp hdrop
    cases ev <;> simp [speechStep, hp] at hdrop ⊢ <;> split_ifs at hdrop <;> simp_all

/-- Witness for C4 (amended): deferral while listening and firing once
recognition stopped, at concrete states. -/
theorem c4_scheduler_no_overlap_witness :
    speechStep c4Pending SpeechEvent.pendingTimerFires = c4Pending ∧
    (speechStep { c4Pending with listening := false }
        SpeechEvent.pendingTimerFires).speaking = true := by
  constructor
  · exact (c4_scheduler_no_overlap c4Pending).1 rfl rfl
  · have := (c4_scheduler_no_overlap { c4Pending with listening := false }).2.1 rfl rfl
    rw [this]

/-! ## C6 development: character-class facts -/

theorem jsonWs_cases {c : Char} (h : jsonWs c = true) :
    c = ' ' ∨ c = '\t' ∨ c = '\n' ∨ c = '\r' := by
  simp [jsonWs] at h
  tauto

theorem isDigitC_toNat {c : Char} (h : isDigitC c = true) :
    48 ≤ c.toNat ∧ c.toNat ≤ 57 := by
  simp [isDigitC] at h
  exact h

theorem not_jsonWs_of_toNat {c : Char} (h1 : 33 ≤ c.toNat) : jsonWs c = false := by
  simp [jsonWs]
  repeat' apply And.intro
  all_goals (rintro rfl; simp at h1)

theorem not_jsWsChar_of_toNat {c : Char} (h1 : 33 ≤ c.toNat) (h2 : c.toNat ≤ 126) :
    jsWsChar c = false := by
  simp [jsWsChar, jsonWs]
  repeat' apply And.intro
  all_goals
    first
      | (rintro rfl; simp at h1 h2)
      | omega

theorem isDigitC_not_jsWsChar {c : Char} (h : isDigitC c = true) : jsWsChar c = false := by
  have hb := isDigitC_toNat h
  exact not_jsWsChar_of_toNat (by omega) (by omega)

theorem jsonWs_jsWsChar {c : Char} (h : jsonWs c = true) : jsWsChar c = true := by
  rcases jsonWs_cases h with rfl | rfl | rfl | rfl <;> decide

theorem jsonWs_not_digit {c : Char} (h : jsonWs c = true) : isDigitC c = false := by
  rcases jsonWs_cases h with rfl | rfl | rfl | rfl <;> decide

theorem jsonWs_hexVal {c : Char} (h : jsonWs c = true) : hexVal c = none := by
  rcases jsonWs_cases h with rfl | rfl | rfl | rfl <;> decide

/-! ## C6 development: the CR-deletion relation -/

theorem CRDel_nil_left {t : List Char} (h : CRDel [] t) : t = [] := by
  cases h
  rfl

theorem CRDel_cons_inv {c : Char} {s t : List Char} (h : CRDel (c :: s) t)
    (hc : c ≠ '\r') : ∃ t0, t = c :: t0 ∧ CRDel s t0 := by
  cases h with
  | keep _ h0 => exact ⟨_, rfl, h0⟩
  | drop h0 => exact absurd rfl hc

theorem normEOL_cons_ne (c : Char) (r : List Char)
    (h : ∀ r1, c = '\r' → r = '\n' :: r1 → False) :
    normEOL (c :: r) = c :: normEOL r := by
  conv_lhs => rw [normEOL.eq_def]
  split
  · rename_i heq
    exact absurd heq (by simp)
  · rename_i r1 heq
    injection heq with h1 h2
    exact (h r1 h1 h2).elim
  · rename_i cc rr hcond heq
    injection heq with h1 h2
    subst h1
    subst h2
    rfl

theorem CRDel_normEOL (s : List Char) : CRDel s (normEOL s) := by
  induction s using normEOL.induct with
  | case1 => exact CRDel.nil
  | case2 r ih => exact CRDel.drop (CRDel.keep '\n' ih)
  | case3 c r hne ih =>
    rw [normEOL_cons_ne c r hne]
    exact CRDel.keep c ih

theorem CRDel_skipWs {s t : List Char} (h : CRDel s t) :
    CRDel (skipWs s) (skipWs t) := by
  induction h with
  | nil => exact CRDel.nil
  | keep c h ih =>
    by_cases hc : jsonWs c = true
    · simpa [skipWs, List.dropWhile_cons, hc] using ih
    · simp only [Bool.not_eq_true] at hc
      simpa [skipWs, List.dropWhile_cons, hc] using CRDel.keep c h
  | drop h ih =>
    simpa [skipWs, List.dropWhile_cons] using ih

theorem CRDel_all_ws {s t : List Char} (h : CRDel s t) (hs : s.all jsonWs = true) :
    t.all jsonWs = true := by
  induction h with
  | nil => rfl
  | keep c h ih => simp_all
  | drop h ih => simp_all

/-! ## C6 development: whitespace-skipping and counting -/

theorem skipWs_head_not_ws : ∀ {s c r}, skipWs s = c :: r → jsonWs c = false := by
  intro s
  induction s with
  | nil => intro c r h; simp [skipWs] at h
  | cons a s ih =>
    intro c r h
    by_cases ha : jsonWs a = true
    · rw [skipWs, List.dropWhile_cons, if_pos (by simp [ha])] at h
      exact ih h
    · rw [skipWs, List.dropWhile_cons, if_neg (by simp_all)] at h
      cases h
      simpa using ha

theorem skipWs_decomp (s : List Char) :
    s = s.takeWhile jsonWs ++ skipWs s ∧ (s.takeWhile jsonWs).all jsonWs = true := by
  constructor
  · exact (List.takeWhile_append_dropWhile jsonWs s).symm
  · simp only [List.all_eq_true]
    intro c hc
    exact List.mem_takeWhile_imp hc

theorem countNonWs_append (a b : List Char) :
    countNonWs (a ++ b) = countNonWs a + countNonWs b := by
  simp [countNonWs, List.filter_append]

theorem countNonWs_ws {s : List Char} (h : s.all jsonWs = true) : countNonWs s = 0 := by
  simp only [countNonWs, List.length_eq_zero, List.filter_eq_nil_iff]
  intro c hc
  simp only [List.all_eq_true] at h
  simp [h c hc]

theorem countNonWs_cons (c : Char) (s : List Char) :
    countNonWs (c :: s) = (if jsonWs c = true then 0 else 1) + countNonWs s := by
  by_cases h : jsonWs c = true
  · simp [countNonWs, List.filter_cons, h]
  · simp [countNonWs, List.filter_cons, h]
    omega

theorem countNonWs_normEOL (s : List Char) : countNonWs (normEOL s) = countNonWs s := by
  induction s using normEOL.induct with
  | case1 => rfl
  | case2 r ih =>
    show countNonWs ('\n' :: normEOL r) = _
    simp [countNonWs_cons, ih, show jsonWs '\r' = true from rfl,
      show jsonWs '\n' = true from rfl]
  | case3 c r hne ih =>
    rw [normEOL_cons_ne c r hne, countNonWs_cons, countNonWs_cons, ih]

theorem countNonWs_skipWs (s : List Char) : countNonWs (skipWs s) = countNonWs s := by
  conv_rhs => rw [(skipWs_decomp s).1]
  rw [countNonWs_append, countNonWs_ws (skipWs_decomp s).2]
  omega

/-! ## C6 development: what each parsing function consumes

Each lemma decomposes the input as the consumed prefix followed by the
returned rest, recording the final consumed character (a digit for
numbers, the closing quote for strings), which is never whitespace. -/

theorem takeDigits_consumed : ∀ {acc cnt : Nat} {s : List Char} {a k : Nat}
    {r : List Char}, takeDigits acc cnt s = (a, k, r) →
    s = r ∨ ∃ q c, s = q ++ c :: r ∧ isDigitC c = true := by
  intro acc cnt s
  induction s generalizing acc cnt with
  | nil =>
    intro a k r h
    simp [takeDigits] at h
    left
    exact h.2.2.symm
  | cons c s ih =>
    intro a k r h
    by_cases hd : isDigitC c = true
    · rw [takeDigits, if_pos hd] at h
      rcases ih h with rfl | ⟨q, c2, rfl, hc2⟩
      · exact Or.inr ⟨[], c, rfl, hd⟩
      · exact Or.inr ⟨c :: q, c2, rfl, hc2⟩
    · rw [takeDigits, if_neg hd] at h
      left
      simp only [Prod.mk.injEq] at h
      exact h.2.2

theorem parseFrac_consumed {iv : Nat} {s : List Char} {m : Nat} {e : Int}
    {r : List Char} (h : parseFrac iv s = (m, e, r)) :
    s = r ∨ ∃ q c, s = q ++ c :: r ∧ isDigitC c = true := by
  rw [parseFrac.eq_def] at h
  split at h
  · rename_i c r0
    by_cases hd : isDigitC c = true
    · rw [if_pos hd] at h
      rcases htd : takeDigits (c.toNat - '0'.toNat) 1 r0 with ⟨a, k, rest⟩
      rw [htd] at h
      simp only [Prod.mk.injEq] at h
      obtain ⟨-, -, rfl⟩ := h
      rcases takeDigits_consumed htd with rfl | ⟨q, c2, rfl, hc2⟩
      · exact Or.inr ⟨['.'], c, rfl, hd⟩
      · exact Or.inr ⟨'.' :: c :: q, c2, rfl, hc2⟩
    · rw [if_neg hd] at h
      simp only [Prod.mk.injEq] at h
      obtain ⟨-, -, rfl⟩ := h
      exact Or.inl rfl
  · rename_i s0 hcond
    simp only [Prod.mk.injEq] at h
    obtain ⟨-, -, rfl⟩ := h
    exact Or.inl rfl

theorem expDigits_consumed {sign : Int} {c : Char} {r0 : List Char} {x : Int}
    {r : List Char} (h : expDigits sign c r0 = (x, r)) :
    r0 = r ∨ ∃ q c2, r0 = q ++ c2 :: r ∧ isDigitC c2 = true := by
  rw [expDigits] at h
  rcases htd : takeDigits (c.toNat - '0'.toNat) 1 r0 with ⟨a, k, rest⟩
  rw [htd] at h
  simp only [Prod.mk.injEq] at h
  obtain ⟨-, rfl⟩ := h
  exact takeDigits_consumed htd

theorem parseExp_consumed {s : List Char} {x : Int} {r : List Char}
    (h : parseExp s = (x, r)) :
    s = r ∨ ∃ q c, s = q ++ c :: r ∧ isDigitC c = true := by
  rw [parseExp.eq_def] at h
  split at h
  · rename_i e c r0
    split at h
    · rename_i hcnd
      simp only [Bool.and_eq_true] at hcnd
      rcases expDigits_consumed h with rfl | ⟨q, c2, rfl, hc2⟩
      · exact Or.inr ⟨[e, '+'], c, rfl, hcnd.2⟩
      · exact Or.inr ⟨e :: '+' :: c :: q, c2, rfl, hc2⟩
    · simp only [Prod.mk.injEq] at h
      obtain ⟨-, rfl⟩ := h
      exact Or.inl rfl
  · rename_i e c r0
    split at h
    · rename_i hcnd
      simp only [Bool.and_eq_true] at hcnd
      rcases expDigits_consumed h with rfl | ⟨q, c2, rfl, hc2⟩
      · exact Or.inr ⟨[e, '-'], c, rfl, hcnd.2⟩
      · exact Or.inr ⟨e :: '-' :: c :: q, c2, rfl, hc2⟩
    · simp only [Prod.mk.injEq] at h
      obtain ⟨-, rfl⟩ := h
      exact Or.inl rfl
  · rename_i e c r0 hc1 hc2
    split at h
    · rename_i hcnd
      simp only [Bool.and_eq_true] at hcnd
      rcases expDigits_consumed h with rfl | ⟨q, c2, rfl, hc2b⟩
      · exact Or.inr ⟨[e], c, rfl, hcnd.2⟩
      · exact Or.inr ⟨e :: c :: q, c2, rfl, hc2b⟩
    · simp only [Prod.mk.injEq] at h
      obtain ⟨-, rfl⟩ := h
      exact Or.inl rfl
  · rename_i hc1 hc2 hc3
    simp only [Prod.mk.injEq] at h
    obtain ⟨-, rfl⟩ := h
    exact Or.inl rfl

theorem parseNumTail_consumed {neg : Bool} {iv : Nat} {s : List Char} {j : Json}
    {r : List Char} (h : parseNumTail neg iv s = (j, r)) :
    s = r ∨ ∃ q c, s = q ++ c :: r ∧ isDigitC c = true := by
  rw [parseNumTail] at h
  rcases hfr : parseFrac iv s with ⟨m1, e1, r1⟩
  rw [hfr] at h
  rcases hex : parseExp r1 with ⟨x1, r2⟩
  rw [hex] at h
  simp only [Prod.mk.injEq] at h
  obtain ⟨-, rfl⟩ := h
  rcases parseFrac_consumed hfr with rfl | ⟨q, c, rfl, hc⟩
  · exact parseExp_consumed hex
  · rcases parseExp_consumed hex with rfl | ⟨q2, c2, rfl, hc2⟩
    · exact Or.inr ⟨q, c, rfl, hc⟩
    · exact Or.inr ⟨q ++ c :: q2, c2, by simp, hc2⟩

theorem parseNumber_consumed {s : List Char} {j : Json} {r : List Char}
    (h : parseNumber s = some (j, r)) :
    ∃ q c, s = q ++ c :: r ∧ isDigitC c = true := by
  rw [parseNumber.eq_def] at h
  split at h
  · rename_i r0
    obtain h2 : parseNumTail true 0 r0 = (j, r) := by simpa using h
    rcases parseNumTail_consumed h2 with rfl | ⟨q, c, rfl, hc⟩
    · exact ⟨['-'], '0', rfl, by decide⟩
    · exact ⟨'-' :: '0' :: q, c, rfl, hc⟩
  · rename_i c r0 hne
    split at h
    · rename_i hd
      rcases htd : takeDigits (c.toNat - '0'.toNat) 1 r0 with ⟨a, k, rest⟩
      rw [htd] at h
      obtain h2 : parseNumTail true a rest = (j, r) := by simpa using h
      rcases parseNumTail_consumed h2 with rfl | ⟨q, c2, rfl, hc2⟩
      · rcases takeDigits_consumed htd with rfl | ⟨q3, c3, rfl, hc3⟩
        · exact ⟨['-'], c, rfl, hd⟩
        · exact ⟨'-' :: c :: q3, c3, rfl, hc3⟩
      · rcases takeDigits_consumed htd with rfl | ⟨q3, c3, rfl, hc3⟩
        · exact ⟨'-' :: c :: q, c2, rfl, hc2⟩
        · exact ⟨'-' :: c :: q3 ++ c3 :: q, c2, by simp, hc2⟩
    · simp at h
  · rename_i r0
    obtain h2 : parseNumTail false 0 r0 = (j, r) := by simpa using h
    rcases parseNumTail_consumed h2 with rfl | ⟨q, c, rfl, hc⟩
    · exact ⟨[], '0', rfl, by decide⟩
    · exact ⟨'0' :: q, c, rfl, hc⟩
  · rename_i c r0 hne1 hne2 hne3
    split at h
    · rename_i hd
      rcases htd : takeDigits (c.toNat - '0'.toNat) 1 r0 with ⟨a, k, rest⟩
      rw [htd] at h
      obtain h2 : parseNumTail false a rest = (j, r) := by simpa using h
      rcases parseNumTail_consumed h2 with rfl | ⟨q, c2, rfl, hc2⟩
      · rcases takeDigits_consumed htd with rfl | ⟨q3, c3, rfl, hc3⟩
        · exact ⟨[], c, rfl, hd⟩
        · exact ⟨c :: q3, c3, rfl, hc3⟩
      · rcases takeDigits_consumed htd with rfl | ⟨q3, c3, rfl, hc3⟩
        · exact ⟨c :: q, c2, rfl, hc2⟩
        · exact ⟨c :: q3 ++ c3 :: q, c2, by simp, hc2⟩
    · simp at h
  · simp at h

/-- Conditional unfolding of `parseStringRaw` at an escape that is not
a (complete) `\u` escape. -/
theorem parseStringRaw_escape {e : Char} {r : List Char}
    (hne : ∀ (a b c d : Char) (r1 : List Char), e = 'u' → r = a :: b :: c :: d :: r1 → False) :
    parseStringRaw ('\\' :: e :: r) =
      match escChar e with
      | some c => (parseStringRaw r).map (fun p => (c.toNat :: p.1, p.2))
      | none => none := by
  conv_lhs => rw [parseStringRaw.eq_def]
  split
  · rename_i heq
    exact absurd heq (by simp)
  · rename_i r1 heq
    exact absurd heq (by simp)
  · rename_i a b c d r1 heq
    injection heq with g1 g2
    injection g2 with g3 g4
    exact (hne a b c d r1 g3 g4).elim
  · rename_i e1 r1 hcond heq
    injection heq with g1 g2
    injection g2 with g3 g4
    subst g3
    subst g4
    rfl
  · rename_i c0 r1 hc1 hc2 hc3 heq
    injection heq with g1 g2
    exact (hc3 e r g1.symm g2.symm).elim

/-- Conditional unfolding of `parseStringRaw` at an ordinary character
(not a quote, not a backslash). -/
theorem parseStringRaw_other {c : Char} {r : List Char}
    (h1 : c = '"' → False)
    (h3 : ∀ (e : Char) (r1 : List Char), c = '\\' → r = e :: r1 → False) :
    parseStringRaw (c :: r) =
      if c.toNat < 0x20 then none
      else (parseStringRaw r).map (fun p => (c.toNat :: p.1, p.2)) := by
  conv_lhs => rw [parseStringRaw.eq_def]
  split
  · rename_i heq
    exact absurd heq (by simp)
  · rename_i r1 heq
    injection heq with g1 g2
    exact (h1 g1).elim
  · rename_i a b c1 d r1 heq
    injection heq with g1 g2
    exact (h3 'u' (a :: b :: c1 :: d :: r1) g1 g2).elim
  · rename_i e1 r1 hcond heq
    injection heq with g1 g2
    exact (h3 e1 r1 g1 g2).elim
  · rename_i c0 r1 hc1 hc2 hc3 heq
    injection heq with g1 g2
    subst g1
    subst g2
    rfl

theorem parseStringRaw_consumed : ∀ {s : List Char} {us : List Nat}
    {r : List Char}, parseStringRaw s = some (us, r) → ∃ q, s = q ++ '"' :: r := by
  intro s
  induction s using parseStringRaw.induct with
  | case1 =>
    intro us r h
    simp [parseStringRaw] at h
  | case2 r0 =>
    intro us r h
    obtain ⟨-, rfl⟩ : us = [] ∧ r0 = r := by simpa [parseStringRaw] using h
    exact ⟨[], rfl⟩
  | case3 a b c d r0 hhex =>
    intro us r h
    rw [parseStringRaw.eq_def] at h
    simp only [hhex] at h
    exact Option.noConfusion h
  | case4 a b c d r0 n hhex ih =>
    intro us r h
    rw [parseStringRaw.eq_def] at h
    simp only [hhex, Option.map_eq_some'] at h
    obtain ⟨⟨us1, r1⟩, hp, heq⟩ := h
    simp only [Prod.mk.injEq] at heq
    obtain ⟨-, rfl⟩ := heq
    obtain ⟨q, rfl⟩ := ih hp
    exact ⟨'\\' :: 'u' :: a :: b :: c :: d :: q, rfl⟩
  | case5 e r0 hne c hesc ih =>
    intro us r h
    rw [parseStringRaw_escape hne] at h
    simp only [hesc, Option.map_eq_some'] at h
    obtain ⟨⟨us1, r1⟩, hp, heq⟩ := h
    simp only [Prod.mk.injEq] at heq
    obtain ⟨-, rfl⟩ := heq
    obtain ⟨q, rfl⟩ := ih hp
    exact ⟨'\\' :: e :: q, rfl⟩
  | case6 e r0 hne hesc =>
    intro us r h
    rw [parseStringRaw_escape hne] at h
    simp only [hesc] at h
    exact Option.noConfusion h
  | case7 c r0 h1 h2 h3 hctl =>
    intro us r h
    rw [parseStringRaw_other h1 h3] at h
    rw [if_pos hctl] at h
    simp at h
  | case8 c r0 h1 h2 h3 hctl ih =>
    intro us r h
    rw [parseStringRaw_other h1 h3] at h
    rw [if_neg hctl] at h
    simp only [Option.map_eq_some'] at h
    obtain ⟨⟨us1, r1⟩, hp, heq⟩ := h
    simp only [Prod.mk.injEq] at heq
    obtain ⟨-, rfl⟩ := heq
    obtain ⟨q, rfl⟩ := ih hp
    exact ⟨c :: q, rfl⟩

theorem parseStringRest_consumed {s : List Char} {cs : List Char} {r : List Char}
    (h : parseStringRest s = some (cs, r)) : ∃ q, s = q ++ '"' :: r := by
  rw [parseStringRest] at h
  simp only [Option.map_eq_some'] at h
  obtain ⟨⟨us, r1⟩, hp, heq⟩ := h
  simp only [Prod.mk.injEq] at heq
  obtain ⟨-, rfl⟩ := heq
  exact parseStringRaw_consumed hp

/-- The joint consumed-prefix lemma for the fuel parser: a successful
parse splits the input into a consumed part and the returned rest, the
consumed part ending in a non-whitespace character (the closing
bracket or brace for items and fields). -/
theorem parser_consumed (f : Nat) :
    (∀ {s v r}, parseValue f s = some (v, r) →
      ∃ q c, s = q ++ c :: r ∧ jsWsChar c = false ∧ jsonWs c = false) ∧
    (∀ {acc s v r}, parseItems f acc s = some (v, r) → ∃ q, s = q ++ ']' :: r) ∧
    (∀ {acc s v r}, parseFields f acc s = some (v, r) → ∃ q, s = q ++ '}' :: r) := by
  induction f with
  | zero =>
    refine ⟨?_, ?_, ?_⟩
    · intro s v r h
      simp [parseValue] at h
    · intro acc s v r h
      simp [parseItems] at h
    · intro acc s v r h
      simp [parseFields] at h
  | succ f ih =>
    obtain ⟨ihv, ihi, ihf⟩ := ih
    refine ⟨?_, ?_, ?_⟩
    · intro s v r h
      simp only [parseValue] at h
      split at h
      · rename_i r0
        obtain ⟨-, rfl⟩ : Json.null = v ∧ r0 = r := by simpa using h
        exact ⟨['n', 'u', 'l'], 'l', rfl, by decide, by decide⟩
      · rename_i r0
        obtain ⟨-, rfl⟩ : Json.bool true = v ∧ r0 = r := by simpa using h
        exact ⟨['t', 'r', 'u'], 'e', rfl, by decide, by decide⟩
      · rename_i r0
        obtain ⟨-, rfl⟩ : Json.bool false = v ∧ r0 = r := by simpa using h
        exact ⟨['f', 'a', 'l', 's'], 'e', rfl, by decide, by decide⟩
      · rename_i r0
        simp only [Option.map_eq_some'] at h
        obtain ⟨⟨cs, r1⟩, hp, heq⟩ := h
        simp only [Prod.mk.injEq] at heq
        obtain ⟨-, rfl⟩ := heq
        obtain ⟨q, rfl⟩ := parseStringRest_consumed hp
        exact ⟨'"' :: q, '"', rfl, by decide, by decide⟩
      · rename_i r0
        have hw := (skipWs_decomp r0).1
        split at h
        · rename_i r2 heq
          obtain ⟨-, rfl⟩ : Json.arr [] = v ∧ r2 = r := by simpa using h
          rw [heq] at hw
          refine ⟨'[' :: r0.takeWhile jsonWs, ']', ?_, by decide, by decide⟩
          conv_lhs => rw [hw]
          simp
        · rename_i hcond
          obtain ⟨q, hq⟩ := ihi h
          rw [hq] at hw
          refine ⟨'[' :: (r0.takeWhile jsonWs ++ q), ']', ?_, by decide, by decide⟩
          conv_lhs => rw [hw]
          simp
      · rename_i r0
        have hw := (skipWs_decomp r0).1
        split at h
        · rename_i r2 heq
          obtain ⟨-, rfl⟩ : Json.obj [] = v ∧ r2 = r := by simpa using h
          rw [heq] at hw
          refine ⟨'{' :: r0.takeWhile jsonWs, '}', ?_, by decide, by decide⟩
          conv_lhs => rw [hw]
          simp
        · rename_i hcond
          obtain ⟨q, hq⟩ := ihf h
          rw [hq] at hw
          refine ⟨'{' :: (r0.takeWhile jsonWs ++ q), '}', ?_, by decide, by decide⟩
          conv_lhs => rw [hw]
          simp
      · obtain ⟨q, c, hq, hc⟩ := parseNumber_consumed h
        have hb := isDigitC_toNat hc
        exact ⟨q, c, hq, not_jsWsChar_of_toNat (by omega) (by omega),
          not_jsonWs_of_toNat (by omega)⟩
    · intro acc s v r h
      simp only [parseItems] at h
      rcases hpv : parseValue f s with _ | ⟨v1, r1⟩
      · rw [hpv] at h
        exact Option.noConfusion h
      simp only [hpv] at h
      obtain ⟨q1, c1, hs1, -, -⟩ := ihv hpv
      have hw1 := (skipWs_decomp r1).1
      split at h
      · rename_i r2 heq
        obtain ⟨q, hq⟩ := ihi h
        have hw2 := (skipWs_decomp r2).1
        rw [hq] at hw2
        rw [heq] at hw1
        refine ⟨q1 ++ c1 :: (r1.takeWhile jsonWs ++ ',' :: (r2.takeWhile jsonWs ++ q)), ?_⟩
        conv_lhs => rw [hs1, hw1, hw2]
        simp
      · rename_i r2 heq
        obtain ⟨-, rfl⟩ : Json.arr (acc ++ [v1]) = v ∧ r2 = r := by simpa using h
        rw [heq] at hw1
        refine ⟨q1 ++ c1 :: r1.takeWhile jsonWs, ?_⟩
        conv_lhs => rw [hs1, hw1]
        simp
      · exact Option.noConfusion h
    · intro acc s v r h
      simp only [parseFields] at h
      split at h
      · rename_i r0
        rcases hps : parseStringRest r0 with _ | ⟨k1, r1⟩
        · rw [hps] at h
          exact Option.noConfusion h
        simp only [hps] at h
        obtain ⟨qk, hqk⟩ := parseStringRest_consumed hps
        have hw1 := (skipWs_decomp r1).1
        split at h
        · rename_i r2 heq1
          rcases hpv : parseValue f (skipWs r2) with _ | ⟨v1, r3⟩
          · rw [hpv] at h
            exact Option.noConfusion h
          simp only [hpv] at h
          obtain ⟨q1, c1, hs1, -, -⟩ := ihv hpv
          have hw2 := (skipWs_decomp r2).1
          have hw3 := (skipWs_decomp r3).1
          rw [heq1] at hw1
          rw [hs1] at hw2
          split at h
          · rename_i r4 heq2
            obtain ⟨q, hq⟩ := ihf h
            have hw4 := (skipWs_decomp r4).1
            rw [hq] at hw4
            rw [heq2] at hw3
            refine ⟨'"' :: (qk ++ '"' :: (r1.takeWhile jsonWs ++ ':' ::
              (r2.takeWhile jsonWs ++ q1 ++ c1 :: (r3.takeWhile jsonWs ++ ',' ::
                (r4.takeWhile jsonWs ++ q))))), ?_⟩
            conv_lhs => rw [hqk, hw1, hw2, hw3, hw4]
            simp
          · rename_i r4 heq2
            obtain ⟨-, rfl⟩ : Json.obj (insertField acc (String.mk k1) v1) = v ∧ r4 = r := by
              simpa using h
            rw [heq2] at hw3
            refine ⟨'"' :: (qk ++ '"' :: (r1.takeWhile jsonWs ++ ':' ::
              (r2.takeWhile jsonWs ++ q1 ++ c1 :: r3.takeWhile jsonWs))), ?_⟩
            conv_lhs => rw [hqk, hw1, hw2, hw3]
            simp
          · exact Option.noConfusion h
        · exact Option.noConfusion h
      · exact Option.noConfusion h

/-! ## C6 development: head characters of successful parses -/

theorem parseNumber_head {s : List Char} {x : Json × List Char}
    (h : parseNumber s = some x) :
    ∃ c r0, s = c :: r0 ∧ 33 ≤ c.toNat ∧ c.toNat ≤ 126 := by
  rw [parseNumber.eq_def] at h
  split at h
  · exact ⟨'-', _, rfl, by decide, by decide⟩
  · exact ⟨'-', _, rfl, by decide, by decide⟩
  · exact ⟨'0', _, rfl, by decide, by decide⟩
  · rename_i c r0 hne1 hne2 hne3
    split at h
    · rename_i hd
      have hb := isDigitC_toNat hd
      exact ⟨c, r0, rfl, by omega, by omega⟩
    · exact Option.noConfusion h
  · exact Option.noConfusion h

theorem parseValue_head {f : Nat} {s : List Char} {x : Json × List Char}
    (h : parseValue f s = some x) :
    ∃ c r0, s = c :: r0 ∧ jsonWs c = false ∧ jsWsChar c = false := by
  rcases f with _ | f
  · simp [parseValue] at h
  simp only [parseValue] at h
  split at h
  · exact ⟨'n', _, rfl, by decide, by decide⟩
  · exact ⟨'t', _, rfl, by decide, by decide⟩
  · exact ⟨'f', _, rfl, by decide, by decide⟩
  · exact ⟨'"', _, rfl, by decide, by decide⟩
  · exact ⟨'[', _, rfl, by decide, by decide⟩
  · exact ⟨'{', _, rfl, by decide, by decide⟩
  · obtain ⟨c, r0, rfl, h1, h2⟩ := parseNumber_head h
    exact ⟨c, r0, rfl, not_jsonWs_of_toNat h1, not_jsWsChar_of_toNat h1 h2⟩

/-! ## C6 development: simulation under CR deletion

A successful parse of `s` transfers to any `t` related by `CRDel s t`:
the deleted carriage returns only ever sit in whitespace positions, so
the same value is parsed and the remainders stay related. -/

theorem ne_cr_of_not_ws {c : Char} (h : jsonWs c = false) : c ≠ '\r' := by
  rintro rfl
  simp [jsonWs] at h

theorem hex4_chars {a b c d : Char} {n : Nat} (h : hex4 a b c d = some n) :
    a ≠ '\r' ∧ b ≠ '\r' ∧ c ≠ '\r' ∧ d ≠ '\r' := by
  rw [hex4] at h
  split at h
  · rename_i x y z w hx hy hz hw
    refine ⟨?_, ?_, ?_, ?_⟩ <;> rintro rfl <;> simp [hexVal] at hx hy hz hw
  · exact Option.noConfusion h

theorem escChar_ne_cr {e : Char} {c : Char} (h : escChar e = some c) : e ≠ '\r' := by
  rintro rfl
  simp [escChar] at h

theorem escChar_ne_u {e : Char} {c : Char} (h : escChar e = some c) : e ≠ 'u' := by
  rintro rfl
  simp [escChar] at h

theorem CRDel_skipWs_cons {a b : List Char} {c : Char} {x : List Char}
    (hrel : CRDel a b) (hx : skipWs a = c :: x) :
    ∃ y, skipWs b = c :: y ∧ CRDel x y := by
  have h1 := CRDel_skipWs hrel
  rw [hx] at h1
  exact CRDel_cons_inv h1 (ne_cr_of_not_ws (skipWs_head_not_ws hx))

theorem CRDel_skipWs_nil {a b : List Char} (hrel : CRDel a b)
    (hx : skipWs a = []) : skipWs b = [] := by
  have h1 := CRDel_skipWs hrel
  rw [hx] at h1
  exact CRDel_nil_left h1

theorem digit_ne_cr {c : Char} (h : isDigitC c = true) : c ≠ '\r' := by
  rintro rfl
  simp [isDigitC] at h

/-- Backward shape analysis: when the target of a CR deletion starts
with a character, the source starts with the same character, or with
the deleted `"\r"` in front of a kept `"\n"`. -/
theorem CRDel_cons_src {s t : List Char} {a : Char} {t1 : List Char}
    (hrel : CRDel s t) (ht : t = a :: t1) :
    (∃ s1, s = a :: s1 ∧ CRDel s1 t1) ∨
      (a = '\n' ∧ ∃ s2, s = '\r' :: '\n' :: s2 ∧ CRDel s2 t1) := by
  cases hrel with
  | nil => exact absurd ht (by simp)
  | keep c h0 =>
    injection ht with g1 g2
    subst g1
    subst g2
    exact Or.inl ⟨_, rfl, h0⟩
  | drop h0 =>
    obtain ⟨t0, rfl, h1⟩ := CRDel_cons_inv h0 (by decide)
    injection ht with g1 g2
    subst g1
    subst g2
    exact Or.inr ⟨rfl, _, rfl, h1⟩

theorem takeDigits_sim : ∀ {s t : List Char} {acc cnt a k : Nat} {r : List Char},
    CRDel s t → takeDigits acc cnt s = (a, k, r) →
    ∃ r2, takeDigits acc cnt t = (a, k, r2) ∧ CRDel r r2 := by
  intro s
  induction s with
  | nil =>
    intro t acc cnt a k r hrel h
    obtain rfl := CRDel_nil_left hrel
    rw [takeDigits] at h
    simp only [Prod.mk.injEq] at h
    obtain ⟨rfl, rfl, rfl⟩ := h
    exact ⟨[], rfl, CRDel.nil⟩
  | cons c s1 ih =>
    intro t acc cnt a k r hrel h
    by_cases hd : isDigitC c = true
    · obtain ⟨t1, rfl, hrel1⟩ := CRDel_cons_inv hrel (digit_ne_cr hd)
      rw [takeDigits, if_pos hd] at h
      obtain ⟨r2, ht, hr⟩ := ih hrel1 h
      exact ⟨r2, by rw [takeDigits, if_pos hd]; exact ht, hr⟩
    · rw [takeDigits, if_neg hd] at h
      simp only [Prod.mk.injEq] at h
      obtain ⟨rfl, rfl, rfl⟩ := h
      refine ⟨t, ?_, hrel⟩
      cases hrel with
      | keep _ h1 => rw [takeDigits, if_neg hd]
      | drop h1 =>
        obtain ⟨t1, rfl, -⟩ := CRDel_cons_inv h1 (by decide)
        rw [takeDigits, if_neg (by decide : ¬isDigitC '\n' = true)]

theorem parseFrac_stop {t : List Char} (iv : Nat)
    (h : ∀ c r1, t = '.' :: c :: r1 → isDigitC c = false) :
    parseFrac iv t = (iv, 0, t) := by
  rw [parseFrac.eq_def]
  split
  · rename_i c r1
    rw [if_neg (by simp [h c r1 rfl])]
  · rfl

theorem parseFrac_stop_transfer {s t : List Char} (hrel : CRDel s t)
    (hs : ∀ c r1, s = '.' :: c :: r1 → isDigitC c = false) :
    ∀ c r1, t = '.' :: c :: r1 → isDigitC c = false := by
  intro c r1 ht
  rcases CRDel_cons_src hrel ht with ⟨s1, rfl, h1⟩ | ⟨hdot, -⟩
  · rcases CRDel_cons_src h1 rfl with ⟨s2, rfl, -⟩ | ⟨rfl, -⟩
    · exact hs c s2 rfl
    · decide
  · exact absurd hdot (by decide)

theorem parseFrac_sim {s t : List Char} {iv m : Nat} {e : Int} {r : List Char}
    (hrel : CRDel s t) (h : parseFrac iv s = (m, e, r)) :
    ∃ r2, parseFrac iv t = (m, e, r2) ∧ CRDel r r2 := by
  rw [parseFrac.eq_def] at h
  split at h
  · rename_i c s1
    by_cases hd : isDigitC c = true
    · rw [if_pos hd] at h
      rcases htd : takeDigits (c.toNat - '0'.toNat) 1 s1 with ⟨a, k, rs⟩
      simp only [htd] at h
      simp only [Prod.mk.injEq] at h
      obtain ⟨rfl, rfl, rfl⟩ := h
      obtain ⟨t0, rfl, hrel0⟩ := CRDel_cons_inv hrel (by decide)
      obtain ⟨t1, rfl, hrel1⟩ := CRDel_cons_inv hrel0 (digit_ne_cr hd)
      obtain ⟨rt, htd2, hrelr⟩ := takeDigits_sim hrel1 htd
      refine ⟨rt, ?_, hrelr⟩
      rw [parseFrac, if_pos hd]
      simp only [htd2]
    · rw [if_neg hd] at h
      simp only [Prod.mk.injEq] at h
      obtain ⟨rfl, rfl, rfl⟩ := h
      refine ⟨t, ?_, hrel⟩
      refine parseFrac_stop _ (parseFrac_stop_transfer hrel ?_)
      intro c2 r2 heq
      injection heq with g1 g2
      injection g2 with g3 g4
      subst g3
      simpa using hd
  · rename_i hne
    simp only [Prod.mk.injEq] at h
    obtain ⟨rfl, rfl, rfl⟩ := h
    refine ⟨t, ?_, hrel⟩
    refine parseFrac_stop _ (parseFrac_stop_transfer hrel ?_)
    intro c2 r2 heq
    exact absurd heq (hne c2 r2)

theorem expCond_nl_left (c : Char) :
    (('\n' == 'e' || '\n' == 'E') && isDigitC c) = false := by
  have h : ('\n' == 'e' || '\n' == 'E') = false := by decide
  rw [h, Bool.false_and]

theorem expCond_nl_right (e : Char) :
    ((e == 'e' || e == 'E') && isDigitC '\n') = false := by
  have h : isDigitC '\n' = false := by decide
  rw [h, Bool.and_false]

/-- Conditional unfolding of `parseExp` at its two-character arm. -/
theorem parseExp_arm3 (e c : Char) (r : List Char) (h1 : c ≠ '+') (h2 : c ≠ '-') :
    parseExp (e :: c :: r) =
      if (e == 'e' || e == 'E') && isDigitC c then expDigits 1 c r
      else (0, e :: c :: r) := by
  rw [parseExp.eq_def]
  split
  · rename_i x e1 c1 r1 heq
    injection heq with g1 g2
    injection g2 with g3 g4
    exact absurd g3 h1
  · rename_i x e1 c1 r1 heq
    injection heq with g1 g2
    injection g2 with g3 g4
    exact absurd g3 h2
  · rename_i x e1 c1 r1 hc1 hc2 heq
    injection heq with g1 g2
    injection g2 with g3 g4
    subst g1
    subst g3
    subst g4
    rfl
  · rename_i x hc1 hc2 hc3
    exact (hc3 e c r rfl).elim

theorem parseExp_stop {t : List Char}
    (h1 : ∀ e c r1, t = e :: '+' :: c :: r1 → ((e == 'e' || e == 'E') && isDigitC c) = false)
    (h2 : ∀ e c r1, t = e :: '-' :: c :: r1 → ((e == 'e' || e == 'E') && isDigitC c) = false)
    (h3 : ∀ e c r1, t = e :: c :: r1 → ((e == 'e' || e == 'E') && isDigitC c) = false) :
    parseExp t = (0, t) := by
  rw [parseExp.eq_def]
  split
  · rename_i e c r1
    rw [if_neg (by simp [h1 e c r1 rfl])]
  · rename_i e c r1
    rw [if_neg (by simp [h2 e c r1 rfl])]
  · rename_i e c r1 hc1 hc2
    rw [if_neg (by simp [h3 e c r1 rfl])]
  · rfl

theorem parseExp_stop_transfer {s t : List Char} (hrel : CRDel s t)
    (hs1 : ∀ e c r1, s = e :: '+' :: c :: r1 → ((e == 'e' || e == 'E') && isDigitC c) = false)
    (hs2 : ∀ e c r1, s = e :: '-' :: c :: r1 → ((e == 'e' || e == 'E') && isDigitC c) = false)
    (hs3 : ∀ e c r1, s = e :: c :: r1 → ((e == 'e' || e == 'E') && isDigitC c) = false) :
    parseExp t = (0, t) := by
  refine parseExp_stop ?_ ?_ ?_
  · intro e c r1 ht
    rcases CRDel_cons_src hrel ht with ⟨s1, rfl, hr1⟩ | ⟨rfl, -⟩
    · rcases CRDel_cons_src hr1 rfl with ⟨s2, rfl, hr2⟩ | ⟨hplus, -⟩
      · rcases CRDel_cons_src hr2 rfl with ⟨s3, rfl, -⟩ | ⟨rfl, -⟩
        · exact hs1 e c s3 rfl
        · exact expCond_nl_right e
      · exact absurd hplus (by decide)
    · exact expCond_nl_left c
  · intro e c r1 ht
    rcases CRDel_cons_src hrel ht with ⟨s1, rfl, hr1⟩ | ⟨rfl, -⟩
    · rcases CRDel_cons_src hr1 rfl with ⟨s2, rfl, hr2⟩ | ⟨hminus, -⟩
      · rcases CRDel_cons_src hr2 rfl with ⟨s3, rfl, -⟩ | ⟨rfl, -⟩
        · exact hs2 e c s3 rfl
        · exact expCond_nl_right e
      · exact absurd hminus (by decide)
    · exact expCond_nl_left c
  · intro e c r1 ht
    rcases CRDel_cons_src hrel ht with ⟨s1, rfl, hr1⟩ | ⟨rfl, -⟩
    · rcases CRDel_cons_src hr1 rfl with ⟨s2, rfl, -⟩ | ⟨rfl, -⟩
      · exact hs3 e c s2 rfl
      · exact expCond_nl_right e
    · exact expCond_nl_left c

theorem parseExp_sim {s t : List Char} {e1 : Int} {r : List Char}
    (hrel : CRDel s t) (h : parseExp s = (e1, r)) :
    ∃ r2, parseExp t = (e1, r2) ∧ CRDel r r2 := by
  rw [parseExp.eq_def] at h
  split at h
  · rename_i e c r0
    split at h
    · rename_i hcnd
      have hcnd2 := hcnd
      simp only [Bool.and_eq_true, Bool.or_eq_true, beq_iff_eq] at hcnd2
      obtain ⟨he, hd⟩ := hcnd2
      have hecr : e ≠ '\r' := by rcases he with rfl | rfl <;> decide
      obtain ⟨t0, rfl, hrel0⟩ := CRDel_cons_inv hrel hecr
      obtain ⟨t1, rfl, hrel1⟩ := CRDel_cons_inv hrel0 (by decide)
      obtain ⟨t2, rfl, hrel2⟩ := CRDel_cons_inv hrel1 (digit_ne_cr hd)
      rcases htd : takeDigits (c.toNat - '0'.toNat) 1 r0 with ⟨a, k, rs⟩
      simp only [expDigits, htd] at h
      simp only [Prod.mk.injEq] at h
      obtain ⟨rfl, rfl⟩ := h
      obtain ⟨rt, htd2, hrelr⟩ := takeDigits_sim hrel2 htd
      refine ⟨rt, ?_, hrelr⟩
      have harm : parseExp (e :: '+' :: c :: t2) =
          if (e == 'e' || e == 'E') && isDigitC c then expDigits 1 c t2
          else (0, e :: '+' :: c :: t2) := rfl
      rw [harm, if_pos hcnd]
      simp only [expDigits, htd2]
    · rename_i hcnd
      simp only [Bool.not_eq_true] at hcnd
      simp only [Prod.mk.injEq] at h
      obtain ⟨rfl, rfl⟩ := h
      refine ⟨t, ?_, hrel⟩
      refine parseExp_stop_transfer hrel ?_ ?_ ?_
      · intro e2 c2 r2 heq
        injection heq with g1 g2
        injection g2 with g3 g4
        injection g4 with g5 g6
        subst g1
        subst g5
        exact hcnd
      · intro e2 c2 r2 heq
        injection heq with g1 g2
        injection g2 with g3 g4
        exact absurd g3 (by decide)
      · intro e2 c2 r2 heq
        injection heq with g1 g2
        injection g2 with g3 g4
        subst g1
        subst g3
        have hp : isDigitC '+' = false := by decide
        rw [hp, Bool.and_false]
  · rename_i e c r0
    split at h
    · rename_i hcnd
      have hcnd2 := hcnd
      simp only [Bool.and_eq_true, Bool.or_eq_true, beq_iff_eq] at hcnd2
      obtain ⟨he, hd⟩ := hcnd2
      have hecr : e ≠ '\r' := by rcases he with rfl | rfl <;> decide
      obtain ⟨t0, rfl, hrel0⟩ := CRDel_cons_inv hrel hecr
      obtain ⟨t1, rfl, hrel1⟩ := CRDel_cons_inv hrel0 (by decide)
      obtain ⟨t2, rfl, hrel2⟩ := CRDel_cons_inv hrel1 (digit_ne_cr hd)
      rcases htd : takeDigits (c.toNat - '0'.toNat) 1 r0 with ⟨a, k, rs⟩
      simp only [expDigits, htd] at h
      simp only [Prod.mk.injEq] at h
      obtain ⟨rfl, rfl⟩ := h
      obtain ⟨rt, htd2, hrelr⟩ := takeDigits_sim hrel2 htd
      refine ⟨rt, ?_, hrelr⟩
      have harm : parseExp (e :: '-' :: c :: t2) =
          if (e == 'e' || e == 'E') && isDigitC c then expDigits (-1) c t2
          else (0, e :: '-' :: c :: t2) := rfl
      rw [harm, if_pos hcnd]
      simp only [expDigits, htd2]
    · rename_i hcnd
      simp only [Bool.not_eq_true] at hcnd
      simp only [Prod.mk.injEq] at h
      obtain ⟨rfl, rfl⟩ := h
      refine ⟨t, ?_, hrel⟩
      refine parseExp_stop_transfer hrel ?_ ?_ ?_
      · intro e2 c2 r2 heq
        injection heq with g1 g2
        injection g2 with g3 g4
        exact absurd g3 (by decide)
      · intro e2 c2 r2 heq
        injection heq with g1 g2
        injection g2 with g3 g4
        injection g4 with g5 g6
        subst g1
        subst g5
        exact hcnd
      · intro e2 c2 r2 heq
        injection heq with g1 g2
        injection g2 with g3 g4
        subst g1
        subst g3
        have hp : isDigitC '-' = false := by decide
        rw [hp, Bool.and_false]
  · rename_i e c r0 hc1 hc2
    split at h
    · rename_i hcnd
      have hcnd2 := hcnd
      simp only [Bool.and_eq_true, Bool.or_eq_true, beq_iff_eq] at hcnd2
      obtain ⟨he, hd⟩ := hcnd2
      have hecr : e ≠ '\r' := by rcases he with rfl | rfl <;> decide
      have hcp : c ≠ '+' := by
        rintro rfl
        exact absurd hd (by decide)
      have hcm : c ≠ '-' := by
        rintro rfl
        exact absurd hd (by decide)
      obtain ⟨t0, rfl, hrel0⟩ := CRDel_cons_inv hrel hecr
      obtain ⟨t1, rfl, hrel1⟩ := CRDel_cons_inv hrel0 (digit_ne_cr hd)
      rcases htd : takeDigits (c.toNat - '0'.toNat) 1 r0 with ⟨a, k, rs⟩
      simp only [expDigits, htd] at h
      simp only [Prod.mk.injEq] at h
      obtain ⟨rfl, rfl⟩ := h
      obtain ⟨rt, htd2, hrelr⟩ := takeDigits_sim hrel1 htd
      refine ⟨rt, ?_, hrelr⟩
      rw [parseExp_arm3 e c t1 hcp hcm, if_pos hcnd]
      simp only [expDigits, htd2]
    · rename_i hcnd
      simp only [Bool.not_eq_true] at hcnd
      simp only [Prod.mk.injEq] at h
      obtain ⟨rfl, rfl⟩ := h
      refine ⟨t, ?_, hrel⟩
      refine parseExp_stop_transfer hrel ?_ ?_ ?_
      · intro e2 c2 r2 heq
        injection heq with g1 g2
        injection g2 with g3 g4
        exact (hc1 c2 r2 g3 g4).elim
      · intro e2 c2 r2 heq
        injection heq with g1 g2
        injection g2 with g3 g4
        exact (hc2 c2 r2 g3 g4).elim
      · intro e2 c2 r2 heq
        injection heq with g1 g2
        injection g2 with g3 g4
        subst g1
        subst g3
        exact hcnd
  · rename_i hc1 hc2 hc3
    simp only [Prod.mk.injEq] at h
    obtain ⟨rfl, rfl⟩ := h
    refine ⟨t, ?_, hrel⟩
    refine parseExp_stop_transfer hrel ?_ ?_ ?_
    · intro e2 c2 r2 heq
      exact (hc1 e2 c2 r2 heq).elim
    · intro e2 c2 r2 heq
      exact (hc2 e2 c2 r2 heq).elim
    · intro e2 c2 r2 heq
      exact (hc3 e2 c2 r2 heq).elim

theorem parseNumTail_sim {s t : List Char} {neg : Bool} {iv : Nat} {x : Json}
    {r : List Char} (hrel : CRDel s t) (h : parseNumTail neg iv s = (x, r)) :
    ∃ r2, parseNumTail neg iv t = (x, r2) ∧ CRDel r r2 := by
  rcases hfr : parseFrac iv s with ⟨m1, e1, rf⟩
  rcases hex : parseExp rf with ⟨e2, rx⟩
  simp only [parseNumTail, hfr, hex] at h
  simp only [Prod.mk.injEq] at h
  obtain ⟨rfl, rfl⟩ := h
  obtain ⟨rf2, hfr2, hrelf⟩ := parseFrac_sim hrel hfr
  obtain ⟨rx2, hex2, hrelx⟩ := parseExp_sim hrelf hex
  refine ⟨rx2, ?_, hrelx⟩
  simp only [parseNumTail, hfr2, hex2]

/-- Conditional unfolding of `parseNumber` at its signed arm. -/
theorem parseNumber_arm2 (c : Char) (r : List Char) (h0 : c ≠ '0') :
    parseNumber ('-' :: c :: r) =
      if isDigitC c then
        let t := takeDigits (c.toNat - '0'.toNat) 1 r
        some (parseNumTail true t.1 t.2.2)
      else none := by
  rw [parseNumber.eq_def]
  split
  · rename_i x r1 heq
    injection heq with g1 g2
    injection g2 with g3 g4
    exact absurd g3 h0
  · rename_i x c1 r1 hne heq
    injection heq with g1 g2
    injection g2 with g3 g4
    subst g3
    subst g4
    rfl
  · rename_i x r1 heq
    injection heq with g1 g2
    exact absurd g1 (by decide)
  · rename_i x c1 r1 hn1 hn2 hn3 heq
    injection heq with g1 g2
    exact (hn2 c r g1.symm g2.symm).elim
  · rename_i x heq
    exact absurd heq (by simp)

/-- Conditional unfolding of `parseNumber` at its unsigned arm. -/
theorem parseNumber_arm4 (c : Char) (r : List Char) (hm : c ≠ '-') (h0 : c ≠ '0') :
    parseNumber (c :: r) =
      if isDigitC c then
        let t := takeDigits (c.toNat - '0'.toNat) 1 r
        some (parseNumTail false t.1 t.2.2)
      else none := by
  rw [parseNumber.eq_def]
  split
  · rename_i x r1 heq
    injection heq with g1 g2
    exact absurd g1 hm
  · rename_i x c1 r1 hne heq
    injection heq with g1 g2
    exact absurd g1 hm
  · rename_i x r1 heq
    injection heq with g1 g2
    exact absurd g1 h0
  · rename_i x c1 r1 hn1 hn2 hn3 heq
    injection heq with g1 g2
    subst g1
    subst g2
    rfl
  · rename_i x heq
    exact absurd heq (by simp)

theorem parseNumber_sim {s t : List Char} {x : Json} {r : List Char}
    (hrel : CRDel s t) (h : parseNumber s = some (x, r)) :
    ∃ r2, parseNumber t = some (x, r2) ∧ CRDel r r2 := by
  rw [parseNumber.eq_def] at h
  split at h
  · rename_i r0
    obtain ⟨t0, rfl, hrel0⟩ := CRDel_cons_inv hrel (by decide)
    obtain ⟨t1, rfl, hrel1⟩ := CRDel_cons_inv hrel0 (by decide)
    injection h with h2
    obtain ⟨r2, hnt2, hrel2⟩ := parseNumTail_sim hrel1 h2
    refine ⟨r2, ?_, hrel2⟩
    have harm : parseNumber ('-' :: '0' :: t1) = some (parseNumTail true 0 t1) := rfl
    rw [harm, hnt2]
  · rename_i c r0 hne1
    split at h
    · rename_i hd
      obtain ⟨t0, rfl, hrel0⟩ := CRDel_cons_inv hrel (by decide)
      obtain ⟨t1, rfl, hrel1⟩ := CRDel_cons_inv hrel0 (digit_ne_cr hd)
      rcases htd : takeDigits (c.toNat - '0'.toNat) 1 r0 with ⟨a, k, rs⟩
      simp only [htd] at h
      injection h with h2
      obtain ⟨rt, htd2, hrelr⟩ := takeDigits_sim hrel1 htd
      obtain ⟨r2, hnt2, hrel2⟩ := parseNumTail_sim hrelr h2
      refine ⟨r2, ?_, hrel2⟩
      rw [parseNumber_arm2 c t1 hne1, if_pos hd]
      simp only [htd2]
      rw [hnt2]
    · exact Option.noConfusion h
  · rename_i r0
    obtain ⟨t0, rfl, hrel0⟩ := CRDel_cons_inv hrel (by decide)
    injection h with h2
    obtain ⟨r2, hnt2, hrel2⟩ := parseNumTail_sim hrel0 h2
    refine ⟨r2, ?_, hrel2⟩
    have harm : parseNumber ('0' :: t0) = some (parseNumTail false 0 t0) := rfl
    rw [harm, hnt2]
  · rename_i c r0 hne1 hne2 hne3
    split at h
    · rename_i hd
      have hcm : c ≠ '-' := by
        rintro rfl
        exact absurd hd (by decide)
      obtain ⟨t0, rfl, hrel0⟩ := CRDel_cons_inv hrel (digit_ne_cr hd)
      rcases htd : takeDigits (c.toNat - '0'.toNat) 1 r0 with ⟨a, k, rs⟩
      simp only [htd] at h
      injection h with h2
      obtain ⟨rt, htd2, hrelr⟩ := takeDigits_sim hrel0 htd
      obtain ⟨r2, hnt2, hrel2⟩ := parseNumTail_sim hrelr h2
      refine ⟨r2, ?_, hrel2⟩
      rw [parseNumber_arm4 c t0 hcm hne3, if_pos hd]
      simp only [htd2]
      rw [hnt2]
    · exact Option.noConfusion h
  · exact Option.noConfusion h

theorem parseStringRaw_sim : ∀ {s t : List Char} {us : List Nat} {r : List Char},
    CRDel s t → parseStringRaw s = some (us, r) →
    ∃ r2, parseStringRaw t = some (us, r2) ∧ CRDel r r2 := by
  intro s
  induction s using parseStringRaw.induct with
  | case1 =>
    intro t us r hrel h
    simp [parseStringRaw] at h
  | case2 r0 =>
    intro t us r hrel h
    obtain ⟨rfl, rfl⟩ : us = [] ∧ r0 = r := by simpa [parseStringRaw] using h
    obtain ⟨t0, rfl, hrel0⟩ := CRDel_cons_inv hrel (by decide)
    exact ⟨t0, rfl, hrel0⟩
  | case3 a b c d r0 hhex =>
    intro t us r hrel h
    rw [parseStringRaw.eq_def] at h
    simp only [hhex] at h
    exact Option.noConfusion h
  | case4 a b c d r0 n hhex ih =>
    intro t us r hrel h
    rw [parseStringRaw.eq_def] at h
    simp only [hhex, Option.map_eq_some'] at h
    obtain ⟨⟨us1, r1⟩, hp, heq⟩ := h
    simp only [Prod.mk.injEq] at heq
    obtain ⟨rfl, rfl⟩ := heq
    obtain ⟨ha, hb, hc, hd2⟩ := hex4_chars hhex
    obtain ⟨t0, rfl, hrel0⟩ := CRDel_cons_inv hrel (by decide)
    obtain ⟨t1, rfl, hrel1⟩ := CRDel_cons_inv hrel0 (by decide)
    obtain ⟨t2, rfl, hrel2⟩ := CRDel_cons_inv hrel1 ha
    obtain ⟨t3, rfl, hrel3⟩ := CRDel_cons_inv hrel2 hb
    obtain ⟨t4, rfl, hrel4⟩ := CRDel_cons_inv hrel3 hc
    obtain ⟨t5, rfl, hrel5⟩ := CRDel_cons_inv hrel4 hd2
    obtain ⟨r2, hp2, hrel6⟩ := ih hrel5 hp
    refine ⟨r2, ?_, hrel6⟩
    have harm : parseStringRaw ('\\' :: 'u' :: a :: b :: c :: d :: t5) =
        match hex4 a b c d with
        | none => none
        | some n => (parseStringRaw t5).map (fun p => (n :: p.1, p.2)) := rfl
    rw [harm]
    simp only [hhex, hp2, Option.map_some']
  | case5 e r0 hne c hesc ih =>
    intro t us r hrel h
    rw [parseStringRaw_escape hne] at h
    simp only [hesc, Option.map_eq_some'] at h
    obtain ⟨⟨us1, r1⟩, hp, heq⟩ := h
    simp only [Prod.mk.injEq] at heq
    obtain ⟨rfl, rfl⟩ := heq
    obtain ⟨t0, rfl, hrel0⟩ := CRDel_cons_inv hrel (by decide)
    obtain ⟨t1, rfl, hrel1⟩ := CRDel_cons_inv hrel0 (escChar_ne_cr hesc)
    obtain ⟨r2, hp2, hrel2⟩ := ih hrel1 hp
    refine ⟨r2, ?_, hrel2⟩
    have hne2 : ∀ (a b c2 d : Char) (r1 : List Char),
        e = 'u' → t1 = a :: b :: c2 :: d :: r1 → False := by
      intro a b c2 d r1 hu ht1
      exact absurd hu (escChar_ne_u hesc)
    rw [parseStringRaw_escape hne2]
    simp only [hesc, hp2, Option.map_some']
  | case6 e r0 hne hesc =>
    intro t us r hrel h
    rw [parseStringRaw_escape hne] at h
    simp only [hesc] at h
    exact Option.noConfusion h
  | case7 c r0 h1 h2 h3 hctl =>
    intro t us r hrel h
    rw [parseStringRaw_other h1 h3] at h
    rw [if_pos hctl] at h
    simp at h
  | case8 c r0 h1 h2 h3 hctl ih =>
    intro t us r hrel h
    rw [parseStringRaw_other h1 h3] at h
    rw [if_neg hctl] at h
    simp only [Option.map_eq_some'] at h
    obtain ⟨⟨us1, r1⟩, hp, heq⟩ := h
    simp only [Prod.mk.injEq] at heq
    obtain ⟨rfl, rfl⟩ := heq
    have hcr : c ≠ '\r' := by
      rintro rfl
      exact hctl (by decide)
    obtain ⟨t0, rfl, hrel0⟩ := CRDel_cons_inv hrel hcr
    obtain ⟨r2, hp2, hrel2⟩ := ih hrel0 hp
    refine ⟨r2, ?_, hrel2⟩
    have h3t : ∀ (e : Char) (r1 : List Char), c = '\\' → t0 = e :: r1 → False := by
      intro e r1 hc ht1
      cases r0 with
      | nil =>
        rw [CRDel_nil_left hrel0] at ht1
        exact List.noConfusion ht1
      | cons y r3 => exact h3 y r3 hc rfl
    rw [parseStringRaw_other h1 h3t, if_neg hctl]
    simp only [hp2, Option.map_some']

theorem parseStringRest_sim {s t : List Char} {cs : List Char} {r : List Char}
    (hrel : CRDel s t) (h : parseStringRest s = some (cs, r)) :
    ∃ r2, parseStringRest t = some (cs, r2) ∧ CRDel r r2 := by
  rw [parseStringRest] at h
  simp only [Option.map_eq_some'] at h
  obtain ⟨⟨us, r1⟩, hp, heq⟩ := h
  simp only [Prod.mk.injEq] at heq
  obtain ⟨rfl, rfl⟩ := heq
  obtain ⟨r2, hp2, hrel2⟩ := parseStringRaw_sim hrel hp
  refine ⟨r2, ?_, hrel2⟩
  rw [parseStringRest]
  simp only [hp2, Option.map_some']

theorem parseNumber_head2 {s : List Char} {x : Json × List Char}
    (h : parseNumber s = some x) :
    ∃ c r0, s = c :: r0 ∧ (c = '-' ∨ isDigitC c = true) := by
  rw [parseNumber.eq_def] at h
  split at h
  · exact ⟨'-', _, rfl, Or.inl rfl⟩
  · exact ⟨'-', _, rfl, Or.inl rfl⟩
  · exact ⟨'0', _, rfl, Or.inr (by decide)⟩
  · rename_i c r0 hne1 hne2 hne3
    split at h
    · rename_i hd
      exact ⟨c, r0, rfl, Or.inr hd⟩
    · exact Option.noConfusion h
  · exact Option.noConfusion h

/-- Conditional unfolding of `parseValue` at its number arm. -/
theorem parseValue_other (f : Nat) (c : Char) (r : List Char)
    (h1 : c ≠ 'n') (h2 : c ≠ 't') (h3 : c ≠ 'f') (h4 : c ≠ '"')
    (h5 : c ≠ '[') (h6 : c ≠ '{') :
    parseValue (f + 1) (c :: r) = parseNumber (c :: r) := by
  simp only [parseValue]
  split
  · rename_i x r1 heq
    injection heq with g1 g2
    exact absurd g1 h1
  · rename_i x r1 heq
    injection heq with g1 g2
    exact absurd g1 h2
  · rename_i x r1 heq
    injection heq with g1 g2
    exact absurd g1 h3
  · rename_i x r1 heq
    injection heq with g1 g2
    exact absurd g1 h4
  · rename_i x r1 heq
    injection heq with g1 g2
    exact absurd g1 h5
  · rename_i x r1 heq
    injection heq with g1 g2
    exact absurd g1 h6
  · rfl

/-- The joint simulation lemma for the fuel parser: a successful parse
of `s` transfers verbatim, at the same fuel, to any CR-deletion image
of `s`, producing the same value and a related rest. -/
theorem parser_sim (f : Nat) :
    (∀ {s t : List Char} {v : Json} {r : List Char}, CRDel s t →
      parseValue f s = some (v, r) →
      ∃ r2, parseValue f t = some (v, r2) ∧ CRDel r r2) ∧
    (∀ {acc : List Json} {s t : List Char} {v : Json} {r : List Char}, CRDel s t →
      parseItems f acc s = some (v, r) →
      ∃ r2, parseItems f acc t = some (v, r2) ∧ CRDel r r2) ∧
    (∀ {acc : List (String × Json)} {s t : List Char} {v : Json} {r : List Char},
      CRDel s t → parseFields f acc s = some (v, r) →
      ∃ r2, parseFields f acc t = some (v, r2) ∧ CRDel r r2) := by
  induction f with
  | zero =>
    refine ⟨?_, ?_, ?_⟩
    · intro s t v r hrel h
      simp [parseValue] at h
    · intro acc s t v r hrel h
      simp [parseItems] at h
    · intro acc s t v r hrel h
      simp [parseFields] at h
  | succ f ih =>
    obtain ⟨ihv, ihi, ihf⟩ := ih
    refine ⟨?_, ?_, ?_⟩
    · intro s t v r hrel h
      simp only [parseValue] at h
      split at h
      · rename_i r0
        obtain ⟨rfl, rfl⟩ : Json.null = v ∧ r0 = r := by simpa using h
        obtain ⟨t0, rfl, hrel0⟩ := CRDel_cons_inv hrel (by decide)
        obtain ⟨t1, rfl, hrel1⟩ := CRDel_cons_inv hrel0 (by decide)
        obtain ⟨t2, rfl, hrel2⟩ := CRDel_cons_inv hrel1 (by decide)
        obtain ⟨t3, rfl, hrel3⟩ := CRDel_cons_inv hrel2 (by decide)
        exact ⟨t3, rfl, hrel3⟩
      · rename_i r0
        obtain ⟨rfl, rfl⟩ : Json.bool true = v ∧ r0 = r := by simpa using h
        obtain ⟨t0, rfl, hrel0⟩ := CRDel_cons_inv hrel (by decide)
        obtain ⟨t1, rfl, hrel1⟩ := CRDel_cons_inv hrel0 (by decide)
        obtain ⟨t2, rfl, hrel2⟩ := CRDel_cons_inv hrel1 (by decide)
        obtain ⟨t3, rfl, hrel3⟩ := CRDel_cons_inv hrel2 (by decide)
        exact ⟨t3, rfl, hrel3⟩
      · rename_i r0
        obtain ⟨rfl, rfl⟩ : Json.bool false = v ∧ r0 = r := by simpa using h
        obtain ⟨t0, rfl, hrel0⟩ := CRDel_cons_inv hrel (by decide)
        obtain ⟨t1, rfl, hrel1⟩ := CRDel_cons_inv hrel0 (by decide)
        obtain ⟨t2, rfl, hrel2⟩ := CRDel_cons_inv hrel1 (by decide)
        obtain ⟨t3, rfl, hrel3⟩ := CRDel_cons_inv hrel2 (by decide)
        obtain ⟨t4, rfl, hrel4⟩ := CRDel_cons_inv hrel3 (by decide)
        exact ⟨t4, rfl, hrel4⟩
      · rename_i r0
        simp only [Option.map_eq_some'] at h
        obtain ⟨⟨cs, r1⟩, hp, heq⟩ := h
        obtain ⟨rfl, rfl⟩ : Json.str (String.mk cs) = v ∧ r1 = r := by simpa using heq
        obtain ⟨t0, rfl, hrel0⟩ := CRDel_cons_inv hrel (by decide)
        obtain ⟨r2, hp2, hrel2⟩ := parseStringRest_sim hrel0 hp
        refine ⟨r2, ?_, hrel2⟩
        have harm : parseValue (f + 1) ('"' :: t0) =
            (parseStringRest t0).map (fun p => (Json.str (String.mk p.1), p.2)) := rfl
        rw [harm]
        simp only [hp2, Option.map_some']
      · rename_i r0
        obtain ⟨t0, rfl, hrel0⟩ := CRDel_cons_inv hrel (by decide)
        have harm : parseValue (f + 1) ('[' :: t0) =
            (match skipWs t0 with
              | ']' :: r2 => some (Json.arr [], r2)
              | r2 => parseItems f [] r2) := rfl
        split at h
        · rename_i r2 heq
          obtain ⟨rfl, rfl⟩ : Json.arr [] = v ∧ r2 = r := by simpa using h
          obtain ⟨y, hy, hrely⟩ := CRDel_skipWs_cons hrel0 heq
          refine ⟨y, ?_, hrely⟩
          rw [harm, hy]
          rfl
        · rename_i hcond
          obtain ⟨r2, hp2, hrel2⟩ := ihi (CRDel_skipWs hrel0) h
          refine ⟨r2, ?_, hrel2⟩
          rw [harm]
          split
          · rename_i r3 heq2
            rcases CRDel_cons_src (CRDel_skipWs hrel0) heq2 with ⟨q, hq, -⟩ | ⟨hbr, -⟩
            · exact (hcond q hq).elim
            · exact absurd hbr (by decide)
          · exact hp2
      · rename_i r0
        obtain ⟨t0, rfl, hrel0⟩ := CRDel_cons_inv hrel (by decide)
        have harm : parseValue (f + 1) ('{' :: t0) =
            (match skipWs t0 with
              | '}' :: r2 => some (Json.obj [], r2)
              | r2 => parseFields f [] r2) := rfl
        split at h
        · rename_i r2 heq
          obtain ⟨rfl, rfl⟩ : Json.obj [] = v ∧ r2 = r := by simpa using h
          obtain ⟨y, hy, hrely⟩ := CRDel_skipWs_cons hrel0 heq
          refine ⟨y, ?_, hrely⟩
          rw [harm, hy]
          rfl
        · rename_i hcond
          obtain ⟨r2, hp2, hrel2⟩ := ihf (CRDel_skipWs hrel0) h
          refine ⟨r2, ?_, hrel2⟩
          rw [harm]
          split
          · rename_i r3 heq2
            rcases CRDel_cons_src (CRDel_skipWs hrel0) heq2 with ⟨q, hq, -⟩ | ⟨hbr, -⟩
            · exact (hcond q hq).elim
            · exact absurd hbr (by decide)
          · exact hp2
      · obtain ⟨c, r0, rfl, hc⟩ := parseNumber_head2 h
        have hcr : c ≠ '\r' := by
          rcases hc with rfl | hd
          · decide
          · exact digit_ne_cr hd
        obtain ⟨t0, rfl, hrel0⟩ := CRDel_cons_inv hrel hcr
        obtain ⟨r2, hp2, hrel2⟩ := parseNumber_sim hrel h
        refine ⟨r2, ?_, hrel2⟩
        have hn1 : c ≠ 'n' := by
          rcases hc with rfl | hd
          · decide
          · rintro rfl
            exact absurd hd (by decide)
        have hn2 : c ≠ 't' := by
          rcases hc with rfl | hd
          · decide
          · rintro rfl
            exact absurd hd (by decide)
        have hn3 : c ≠ 'f' := by
          rcases hc with rfl | hd
          · decide
          · rintro rfl
            exact absurd hd (by decide)
        have hn4 : c ≠ '"' := by
          rcases hc with rfl | hd
          · decide
          · rintro rfl
            exact absurd hd (by decide)
        have hn5 : c ≠ '[' := by
          rcases hc with rfl | hd
          · decide
          · rintro rfl
            exact absurd hd (by decide)
        have hn6 : c ≠ '{' := by
          rcases hc with rfl | hd
          · decide
          · rintro rfl
            exact absurd hd (by decide)
        rw [parseValue_other f c t0 hn1 hn2 hn3 hn4 hn5 hn6]
        exact hp2
    · intro acc s t v r hrel h
      simp only [parseItems] at h
      rcases hpv : parseValue f s with _ | ⟨v1, r1⟩
      · rw [hpv] at h
        exact Option.noConfusion h
      simp only [hpv] at h
      obtain ⟨r1t, hpv2, hrel1⟩ := ihv hrel hpv
      split at h
      · rename_i r2 heq
        obtain ⟨y, hy, hrely⟩ := CRDel_skipWs_cons hrel1 heq
        obtain ⟨r3, hp3, hrel3⟩ := ihi (CRDel_skipWs hrely) h
        refine ⟨r3, ?_, hrel3⟩
        simp only [parseItems, hpv2, hy]
        exact hp3
      · rename_i r2 heq
        obtain ⟨rfl, rfl⟩ : Json.arr (acc ++ [v1]) = v ∧ r2 = r := by simpa using h
        obtain ⟨y, hy, hrely⟩ := CRDel_skipWs_cons hrel1 heq
        refine ⟨y, ?_, hrely⟩
        simp only [parseItems, hpv2, hy]
      · exact Option.noConfusion h
    · intro acc s t v r hrel h
      simp only [parseFields] at h
      split at h
      · rename_i r0
        obtain ⟨t0, rfl, hrel0⟩ := CRDel_cons_inv hrel (by decide)
        rcases hps : parseStringRest r0 with _ | ⟨k1, r1⟩
        · rw [hps] at h
          exact Option.noConfusion h
        simp only [hps] at h
        obtain ⟨r1t, hps2, hrel1⟩ := parseStringRest_sim hrel0 hps
        split at h
        · rename_i r2 heq1
          obtain ⟨y1, hy1, hrely1⟩ := CRDel_skipWs_cons hrel1 heq1
          rcases hpv : parseValue f (skipWs r2) with _ | ⟨v1, r3⟩
          · rw [hpv] at h
            exact Option.noConfusion h
          simp only [hpv] at h
          obtain ⟨r3t, hpv2, hrel3⟩ := ihv (CRDel_skipWs hrely1) hpv
          split at h
          · rename_i r4 heq2
            obtain ⟨y2, hy2, hrely2⟩ := CRDel_skipWs_cons hrel3 heq2
            obtain ⟨r5, hp5, hrel5⟩ := ihf (CRDel_skipWs hrely2) h
            refine ⟨r5, ?_, hrel5⟩
            simp only [parseFields, hps2, hy1, hpv2, hy2]
            exact hp5
          · rename_i r4 heq2
            obtain ⟨rfl, rfl⟩ :
                Json.obj (insertField acc (String.mk k1) v1) = v ∧ r4 = r := by
              simpa using h
            obtain ⟨y2, hy2, hrely2⟩ := CRDel_skipWs_cons hrel3 heq2
            refine ⟨y2, ?_, hrely2⟩
            simp only [parseFields, hps2, hy1, hpv2, hy2]
          · exact Option.noConfusion h
        · exact Option.noConfusion h
      · exact Option.noConfusion h

/-! ## C6 development: locality of parsing

A successful parse never depends on an all-whitespace suffix of the
input: the suffix can be removed without changing the parsed value,
and the returned rest loses exactly that suffix. -/

theorem all_ws_head {w : List Char} {c : Char} {x : List Char}
    (hw : w.all jsonWs = true) (h : w = c :: x) : jsonWs c = true := by
  subst h
  simp only [List.all_cons, Bool.and_eq_true] at hw
  exact hw.1

theorem append_ws_cons {u w : List Char} {c : Char} {x : List Char}
    (hw : w.all jsonWs = true) (hc : jsonWs c = false) (h : u ++ w = c :: x) :
    ∃ u1, u = c :: u1 ∧ x = u1 ++ w := by
  cases u with
  | nil =>
    rw [List.nil_append] at h
    rw [all_ws_head hw h] at hc
    exact Bool.noConfusion hc
  | cons a u1 =>
    rw [List.cons_append] at h
    injection h with g1 g2
    subst g1
    exact ⟨u1, rfl, g2.symm⟩

theorem hexVal_not_ws {c : Char} {n : Nat} (h : hexVal c = some n) :
    jsonWs c = false := by
  by_cases hws : jsonWs c = true
  · rw [jsonWs_hexVal hws] at h
    exact Option.noConfusion h
  · simpa using hws

theorem hex4_not_ws {a b c d : Char} {n : Nat} (h : hex4 a b c d = some n) :
    jsonWs a = false ∧ jsonWs b = false ∧ jsonWs c = false ∧ jsonWs d = false := by
  rw [hex4] at h
  split at h
  · rename_i x y z w2 hx hy hz hw2
    exact ⟨hexVal_not_ws hx, hexVal_not_ws hy, hexVal_not_ws hz, hexVal_not_ws hw2⟩
  · exact Option.noConfusion h

theorem escChar_not_ws {e c : Char} (h : escChar e = some c) : jsonWs e = false := by
  by_cases hws : jsonWs e = true
  · rcases jsonWs_cases hws with rfl | rfl | rfl | rfl <;> simp [escChar] at h
  · simpa using hws

theorem dropWhile_all_append {p : Char → Bool} {a : List Char} (b : List Char)
    (ha : a.all p = true) : (a ++ b).dropWhile p = b.dropWhile p := by
  induction a with
  | nil => rfl
  | cons c x ih =>
    simp only [List.all_cons, Bool.and_eq_true] at ha
    rw [List.cons_append, List.dropWhile_cons, if_pos (by simp [ha.1])]
    exact ih ha.2

theorem skipWs_all_nil {w : List Char} (hw : w.all jsonWs = true) :
    skipWs w = [] := by
  induction w with
  | nil => rfl
  | cons c x ih =>
    simp only [List.all_cons, Bool.and_eq_true] at hw
    rw [skipWs, List.dropWhile_cons, if_pos (by simp [hw.1])]
    exact ih hw.2

theorem skipWs_append_cons {u w : List Char} {c : Char} {x : List Char}
    (h : skipWs u = c :: x) : skipWs (u ++ w) = c :: (x ++ w) := by
  have hc := skipWs_head_not_ws h
  conv_lhs => rw [(skipWs_decomp u).1, h]
  rw [List.append_assoc, skipWs, dropWhile_all_append _ (skipWs_decomp u).2,
    List.cons_append, List.dropWhile_cons, if_neg (by simp [hc])]

theorem skipWs_append_nil {u w : List Char} (hu : skipWs u = [])
    (hw : w.all jsonWs = true) : skipWs (u ++ w) = [] := by
  conv_lhs => rw [(skipWs_decomp u).1, hu]
  rw [List.append_nil, skipWs, dropWhile_all_append _ (skipWs_decomp u).2]
  exact skipWs_all_nil hw

theorem parseValue_nil (f : Nat) : parseValue f [] = none := by
  cases f with
  | zero => rfl
  | succ f => rfl

theorem parseItems_nil (f : Nat) (acc : List Json) : parseItems f acc [] = none := by
  cases f with
  | zero => rfl
  | succ f => simp only [parseItems, parseValue_nil]

theorem parseFields_nil (f : Nat) (acc : List (String × Json)) :
    parseFields f acc [] = none := by
  cases f with
  | zero => rfl
  | succ f => rfl

theorem takeDigits_local {w : List Char} (hw : w.all jsonWs = true) :
    ∀ {u : List Char} {acc cnt a k : Nat} {r : List Char},
    takeDigits acc cnt (u ++ w) = (a, k, r) →
    ∃ r2, r = r2 ++ w ∧ takeDigits acc cnt u = (a, k, r2) := by
  intro u
  induction u with
  | nil =>
    intro acc cnt a k r h
    rw [List.nil_append] at h
    have htw : takeDigits acc cnt w = (acc, cnt, w) := by
      cases w with
      | nil => rfl
      | cons c w1 =>
        rw [takeDigits,
          if_neg (by simp [jsonWs_not_digit (all_ws_head hw rfl)])]
    rw [htw] at h
    simp only [Prod.mk.injEq] at h
    obtain ⟨rfl, rfl, rfl⟩ := h
    exact ⟨[], by simp, rfl⟩
  | cons c u1 ih =>
    intro acc cnt a k r h
    rw [List.cons_append] at h
    by_cases hd : isDigitC c = true
    · rw [takeDigits, if_pos hd] at h
      obtain ⟨r2, rfl, ht⟩ := ih h
      exact ⟨r2, rfl, by rw [takeDigits, if_pos hd]; exact ht⟩
    · rw [takeDigits, if_neg hd] at h
      simp only [Prod.mk.injEq] at h
      obtain ⟨rfl, rfl, rfl⟩ := h
      refine ⟨c :: u1, by simp, ?_⟩
      rw [takeDigits, if_neg hd]

theorem parseFrac_local {w : List Char} (hw : w.all jsonWs = true)
    {u : List Char} {iv m : Nat} {e : Int} {r : List Char}
    (h : parseFrac iv (u ++ w) = (m, e, r)) :
    ∃ r2, r = r2 ++ w ∧ parseFrac iv u = (m, e, r2) := by
  rw [parseFrac.eq_def] at h
  split at h
  · rename_i c r1 heq
    obtain ⟨u1, rfl, h2⟩ := append_ws_cons hw (by decide) heq
    by_cases hd : isDigitC c = true
    · obtain ⟨u2, rfl, h3⟩ :=
        append_ws_cons hw (by
          by_contra hq
          simp only [Bool.not_eq_false] at hq
          rw [jsonWs_not_digit hq] at hd
          exact Bool.noConfusion hd) h2.symm
      rw [if_pos hd] at h
      rcases htd : takeDigits (c.toNat - '0'.toNat) 1 r1 with ⟨a, k, rs⟩
      simp only [htd] at h
      simp only [Prod.mk.injEq] at h
      obtain ⟨rfl, rfl, rfl⟩ := h
      rw [h3] at htd
      obtain ⟨r2, rfl, htd2⟩ := takeDigits_local hw htd
      refine ⟨r2, rfl, ?_⟩
      have harm : parseFrac iv ('.' :: c :: u2) =
          if isDigitC c then
            let t := takeDigits (c.toNat - '0'.toNat) 1 u2
            (iv * 10 ^ t.2.1 + t.1, -(t.2.1 : Int), t.2.2)
          else (iv, 0, '.' :: c :: u2) := rfl
      rw [harm, if_pos hd]
      simp only [htd2]
    · rw [if_neg hd] at h
      simp only [Prod.mk.injEq] at h
      obtain ⟨rfl, rfl, rfl⟩ := h
      refine ⟨'.' :: u1, by rw [List.cons_append, ← h2], ?_⟩
      refine parseFrac_stop _ ?_
      intro c2 r2 hq
      injection hq with g1 g2
      rw [g2, List.cons_append] at h2
      injection h2 with g3 g4
      rw [← g3]
      simpa using hd
  · rename_i hne
    simp only [Prod.mk.injEq] at h
    obtain ⟨rfl, rfl, rfl⟩ := h
    refine ⟨u, rfl, ?_⟩
    refine parseFrac_stop _ ?_
    intro c2 r2 hq
    exact ((hne c2 (r2 ++ w)) (by rw [hq, List.cons_append, List.cons_append])).elim

theorem digit_not_ws {c : Char} (hd : isDigitC c = true) : jsonWs c = false := by
  by_contra hq
  simp only [Bool.not_eq_false] at hq
  rw [jsonWs_not_digit hq] at hd
  exact Bool.noConfusion hd

theorem parseExp_local {w : List Char} (hw : w.all jsonWs = true)
    {u : List Char} {e1 : Int} {r : List Char}
    (h : parseExp (u ++ w) = (e1, r)) :
    ∃ r2, r = r2 ++ w ∧ parseExp u = (e1, r2) := by
  rw [parseExp.eq_def] at h
  split at h
  · rename_i e c r0 heq
    split at h
    · rename_i hcnd
      have hcnd2 := hcnd
      simp only [Bool.and_eq_true, Bool.or_eq_true, beq_iff_eq] at hcnd2
      obtain ⟨he, hd⟩ := hcnd2
      have hews : jsonWs e = false := by rcases he with rfl | rfl <;> decide
      obtain ⟨u1, rfl, h2⟩ := append_ws_cons hw hews heq
      obtain ⟨u2, rfl, h3⟩ := append_ws_cons hw (by decide) h2.symm
      obtain ⟨u3, rfl, h4⟩ := append_ws_cons hw (digit_not_ws hd) h3.symm
      rcases htd : takeDigits (c.toNat - '0'.toNat) 1 r0 with ⟨a, k, rs⟩
      simp only [expDigits, htd] at h
      simp only [Prod.mk.injEq] at h
      obtain ⟨rfl, rfl⟩ := h
      rw [h4] at htd
      obtain ⟨r2, rfl, htd2⟩ := takeDigits_local hw htd
      refine ⟨r2, rfl, ?_⟩
      have harm : parseExp (e :: '+' :: c :: u3) =
          if (e == 'e' || e == 'E') && isDigitC c then expDigits 1 c u3
          else (0, e :: '+' :: c :: u3) := rfl
      rw [harm, if_pos hcnd]
      simp only [expDigits, htd2]
    · rename_i hcnd
      simp only [Bool.not_eq_true] at hcnd
      simp only [Prod.mk.injEq] at h
      obtain ⟨rfl, rfl⟩ := h
      refine ⟨u, heq.symm, ?_⟩
      refine parseExp_stop ?_ ?_ ?_
      · intro e2 c2 r2 hq
        rw [hq, List.cons_append, List.cons_append, List.cons_append] at heq
        injection heq with g1 g2
        injection g2 with g3 g4
        injection g4 with g5 g6
        rw [g1, g5]
        exact hcnd
      · intro e2 c2 r2 hq
        rw [hq, List.cons_append, List.cons_append, List.cons_append] at heq
        injection heq with g1 g2
        injection g2 with g3 g4
        exact absurd g3 (by decide)
      · intro e2 c2 r2 hq
        rw [hq, List.cons_append, List.cons_append] at heq
        injection heq with g1 g2
        injection g2 with g3 g4
        rw [g1, g3]
        have hp : isDigitC '+' = false := by decide
        rw [hp, Bool.and_false]
  · rename_i e c r0 heq
    split at h
    · rename_i hcnd
      have hcnd2 := hcnd
      simp only [Bool.and_eq_true, Bool.or_eq_true, beq_iff_eq] at hcnd2
      obtain ⟨he, hd⟩ := hcnd2
      have hews : jsonWs e = false := by rcases he with rfl | rfl <;> decide
      obtain ⟨u1, rfl, h2⟩ := append_ws_cons hw hews heq
      obtain ⟨u2, rfl, h3⟩ := append_ws_cons hw (by decide) h2.symm
      obtain ⟨u3, rfl, h4⟩ := append_ws_cons hw (digit_not_ws hd) h3.symm
      rcases htd : takeDigits (c.toNat - '0'.toNat) 1 r0 with ⟨a, k, rs⟩
      simp only [expDigits, htd] at h
      simp only [Prod.mk.injEq] at h
      obtain ⟨rfl, rfl⟩ := h
      rw [h4] at htd
      obtain ⟨r2, rfl, htd2⟩ := takeDigits_local hw htd
      refine ⟨r2, rfl, ?_⟩
      have harm : parseExp (e :: '-' :: c :: u3) =
          if (e == 'e' || e == 'E') && isDigitC c then expDigits (-1) c u3
          else (0, e :: '-' :: c :: u3) := rfl
      rw [harm, if_pos hcnd]
      simp only [expDigits, htd2]
    · rename_i hcnd
      simp only [Bool.not_eq_true] at hcnd
      simp only [Prod.mk.injEq] at h
      obtain ⟨rfl, rfl⟩ := h
      refine ⟨u, heq.symm, ?_⟩
      refine parseExp_stop ?_ ?_ ?_
      · intro e2 c2 r2 hq
        rw [hq, List.cons_append, List.cons_append, List.cons_append] at heq
        injection heq with g1 g2
        injection g2 with g3 g4
        exact absurd g3 (by decide)
      · intro e2 c2 r2 hq
        rw [hq, List.cons_append, List.cons_append, List.cons_append] at heq
        injection heq with g1 g2
        injection g2 with g3 g4
        injection g4 with g5 g6
        rw [g1, g5]
        exact hcnd
      · intro e2 c2 r2 hq
        rw [hq, List.cons_append, List.cons_append] at heq
        injection heq with g1 g2
        injection g2 with g3 g4
        rw [g1, g3]
        have hp : isDigitC '-' = false := by decide
        rw [hp, Bool.and_false]
  · rename_i e c r0 hc1 hc2 heq
    split at h
    · rename_i hcnd
      have hcnd2 := hcnd
      simp only [Bool.and_eq_true, Bool.or_eq_true, beq_iff_eq] at hcnd2
      obtain ⟨he, hd⟩ := hcnd2
      have hews : jsonWs e = false := by rcases he with rfl | rfl <;> decide
      have hcp : c ≠ '+' := by
        rintro rfl
        exact absurd hd (by decide)
      have hcm : c ≠ '-' := by
        rintro rfl
        exact absurd hd (by decide)
      obtain ⟨u1, rfl, h2⟩ := append_ws_cons hw hews heq
      obtain ⟨u2, rfl, h3⟩ := append_ws_cons hw (digit_not_ws hd) h2.symm
      rcases htd : takeDigits (c.toNat - '0'.toNat) 1 r0 with ⟨a, k, rs⟩
      simp only [expDigits, htd] at h
      simp only [Prod.mk.injEq] at h
      obtain ⟨rfl, rfl⟩ := h
      rw [h3] at htd
      obtain ⟨r2, rfl, htd2⟩ := takeDigits_local hw htd
      refine ⟨r2, rfl, ?_⟩
      rw [parseExp_arm3 e c u2 hcp hcm, if_pos hcnd]
      simp only [expDigits, htd2]
    · rename_i hcnd
      simp only [Bool.not_eq_true] at hcnd
      simp only [Prod.mk.injEq] at h
      obtain ⟨rfl, rfl⟩ := h
      refine ⟨u, heq.symm, ?_⟩
      refine parseExp_stop ?_ ?_ ?_
      · intro e2 c2 r2 hq
        rw [hq, List.cons_append, List.cons_append, List.cons_append] at heq
        injection heq with g1 g2
        injection g2 with g3 g4
        exact (hc1 c2 (r2 ++ w) g3.symm g4.symm).elim
      · intro e2 c2 r2 hq
        rw [hq, List.cons_append, List.cons_append, List.cons_append] at heq
        injection heq with g1 g2
        injection g2 with g3 g4
        exact (hc2 c2 (r2 ++ w) g3.symm g4.symm).elim
      · intro e2 c2 r2 hq
        rw [hq, List.cons_append, List.cons_append] at heq
        injection heq with g1 g2
        injection g2 with g3 g4
        rw [g1, g3]
        exact hcnd
  · rename_i hc1 hc2 hc3
    simp only [Prod.mk.injEq] at h
    obtain ⟨rfl, rfl⟩ := h
    refine ⟨u, rfl, ?_⟩
    refine parseExp_stop ?_ ?_ ?_
    · intro e2 c2 r2 hq
      exact (hc1 e2 c2 (r2 ++ w)
        (by rw [hq, List.cons_append, List.cons_append, List.cons_append])).elim
    · intro e2 c2 r2 hq
      exact (hc2 e2 c2 (r2 ++ w)
        (by rw [hq, List.cons_append, List.cons_append, List.cons_append])).elim
    · intro e2 c2 r2 hq
      exact (hc3 e2 c2 (r2 ++ w)
        (by rw [hq, List.cons_append, List.cons_append])).elim

theorem parseNumTail_local {w : List Char} (hw : w.all jsonWs = true)
    {u : List Char} {neg : Bool} {iv : Nat} {x : Json} {r : List Char}
    (h : parseNumTail neg iv (u ++ w) = (x, r)) :
    ∃ r2, r = r2 ++ w ∧ parseNumTail neg iv u = (x, r2) := by
  rcases hfr : parseFrac iv (u ++ w) with ⟨m1, e1, rf⟩
  rcases hex : parseExp rf with ⟨e2, rx⟩
  simp only [parseNumTail, hfr, hex] at h
  simp only [Prod.mk.injEq] at h
  obtain ⟨rfl, rfl⟩ := h
  obtain ⟨rf2, rfl, hfr2⟩ := parseFrac_local hw hfr
  obtain ⟨rx2, rfl, hex2⟩ := parseExp_local hw hex
  refine ⟨rx2, rfl, ?_⟩
  simp only [parseNumTail, hfr2, hex2]

theorem parseNumber_local {w : List Char} (hw : w.all jsonWs = true)
    {u : List Char} {x : Json} {r : List Char}
    (h : parseNumber (u ++ w) = some (x, r)) :
    ∃ r2, r = r2 ++ w ∧ parseNumber u = some (x, r2) := by
  rw [parseNumber.eq_def] at h
  split at h
  · rename_i r0 heq
    obtain ⟨u1, rfl, h2⟩ := append_ws_cons hw (by decide) heq
    obtain ⟨u2, rfl, h3⟩ := append_ws_cons hw (by decide) h2.symm
    injection h with h4
    rw [h3] at h4
    obtain ⟨r2, rfl, hnt2⟩ := parseNumTail_local hw h4
    refine ⟨r2, rfl, ?_⟩
    have harm : parseNumber ('-' :: '0' :: u2) = some (parseNumTail true 0 u2) := rfl
    rw [harm, hnt2]
  · rename_i c r0 hne1 heq
    split at h
    · rename_i hd
      obtain ⟨u1, rfl, h2⟩ := append_ws_cons hw (by decide) heq
      obtain ⟨u2, rfl, h3⟩ := append_ws_cons hw (digit_not_ws hd) h2.symm
      rcases htd : takeDigits (c.toNat - '0'.toNat) 1 r0 with ⟨a, k, rs⟩
      simp only [htd] at h
      injection h with h4
      rw [h3] at htd
      obtain ⟨rt, rfl, htd2⟩ := takeDigits_local hw htd
      obtain ⟨r2, rfl, hnt2⟩ := parseNumTail_local hw h4
      refine ⟨r2, rfl, ?_⟩
      rw [parseNumber_arm2 c u2 hne1, if_pos hd]
      simp only [htd2]
      rw [hnt2]
    · exact Option.noConfusion h
  · rename_i r0 heq
    obtain ⟨u1, rfl, h2⟩ := append_ws_cons hw (by decide) heq
    injection h with h4
    rw [h2] at h4
    obtain ⟨r2, rfl, hnt2⟩ := parseNumTail_local hw h4
    refine ⟨r2, rfl, ?_⟩
    have harm : parseNumber ('0' :: u1) = some (parseNumTail false 0 u1) := rfl
    rw [harm, hnt2]
  · rename_i c r0 hne1 hne2 hne3 heq
    split at h
    · rename_i hd
      have hcm : c ≠ '-' := by
        rintro rfl
        exact absurd hd (by decide)
      obtain ⟨u1, rfl, h2⟩ := append_ws_cons hw (digit_not_ws hd) heq
      rcases htd : takeDigits (c.toNat - '0'.toNat) 1 r0 with ⟨a, k, rs⟩
      simp only [htd] at h
      injection h with h4
      rw [h2] at htd
      obtain ⟨rt, rfl, htd2⟩ := takeDigits_local hw htd
      obtain ⟨r2, rfl, hnt2⟩ := parseNumTail_local hw h4
      refine ⟨r2, rfl, ?_⟩
      rw [parseNumber_arm4 c u1 hcm hne3, if_pos hd]
      simp only [htd2]
      rw [hnt2]
    · exact Option.noConfusion h
  · exact Option.noConfusion h

theorem parseStringRaw_local {w : List Char} (hw : w.all jsonWs = true) :
    ∀ {s u : List Char} {us : List Nat} {r : List Char},
    s = u ++ w → parseStringRaw s = some (us, r) →
    ∃ r2, r = r2 ++ w ∧ parseStringRaw u = some (us, r2) := by
  intro s
  induction s using parseStringRaw.induct with
  | case1 =>
    intro u us r hs h
    simp [parseStringRaw] at h
  | case2 r0 =>
    intro u us r hs h
    obtain ⟨rfl, rfl⟩ : us = [] ∧ r0 = r := by simpa [parseStringRaw] using h
    obtain ⟨u1, rfl, h2⟩ := append_ws_cons hw (by decide) hs.symm
    exact ⟨u1, h2, rfl⟩
  | case3 a b c d r0 hhex =>
    intro u us r hs h
    rw [parseStringRaw.eq_def] at h
    simp only [hhex] at h
    exact Option.noConfusion h
  | case4 a b c d r0 n hhex ih =>
    intro u us r hs h
    rw [parseStringRaw.eq_def] at h
    simp only [hhex, Option.map_eq_some'] at h
    obtain ⟨⟨us1, r1⟩, hp, heq⟩ := h
    simp only [Prod.mk.injEq] at heq
    obtain ⟨rfl, rfl⟩ := heq
    obtain ⟨hwa, hwb, hwc, hwd⟩ := hex4_not_ws hhex
    obtain ⟨u1, rfl, h2⟩ := append_ws_cons hw (by decide) hs.symm
    obtain ⟨u2, rfl, h3⟩ := append_ws_cons hw (by decide) h2.symm
    obtain ⟨u3, rfl, h4⟩ := append_ws_cons hw hwa h3.symm
    obtain ⟨u4, rfl, h5⟩ := append_ws_cons hw hwb h4.symm
    obtain ⟨u5, rfl, h6⟩ := append_ws_cons hw hwc h5.symm
    obtain ⟨u6, rfl, h7⟩ := append_ws_cons hw hwd h6.symm
    obtain ⟨r2, rfl, hp2⟩ := ih h7 hp
    refine ⟨r2, rfl, ?_⟩
    have harm : parseStringRaw ('\\' :: 'u' :: a :: b :: c :: d :: u6) =
        match hex4 a b c d with
        | none => none
        | some n => (parseStringRaw u6).map (fun p => (n :: p.1, p.2)) := rfl
    rw [harm]
    simp only [hhex, hp2, Option.map_some']
  | case5 e r0 hne c hesc ih =>
    intro u us r hs h
    rw [parseStringRaw_escape hne] at h
    simp only [hesc, Option.map_eq_some'] at h
    obtain ⟨⟨us1, r1⟩, hp, heq⟩ := h
    simp only [Prod.mk.injEq] at heq
    obtain ⟨rfl, rfl⟩ := heq
    obtain ⟨u1, rfl, h2⟩ := append_ws_cons hw (by decide) hs.symm
    obtain ⟨u2, rfl, h3⟩ := append_ws_cons hw (escChar_not_ws hesc) h2.symm
    obtain ⟨r2, rfl, hp2⟩ := ih h3 hp
    refine ⟨r2, rfl, ?_⟩
    have hne2 : ∀ (a b c2 d : Char) (r1 : List Char),
        e = 'u' → u2 = a :: b :: c2 :: d :: r1 → False := by
      intro a b c2 d r1 hu ht1
      exact absurd hu (escChar_ne_u hesc)
    rw [parseStringRaw_escape hne2]
    simp only [hesc, hp2, Option.map_some']
  | case6 e r0 hne hesc =>
    intro u us r hs h
    rw [parseStringRaw_escape hne] at h
    simp only [hesc] at h
    exact Option.noConfusion h
  | case7 c r0 h1 h2 h3 hctl =>
    intro u us r hs h
    rw [parseStringRaw_other h1 h3] at h
    rw [if_pos hctl] at h
    simp at h
  | case8 c r0 h1 h2 h3 hctl ih =>
    intro u us r hs h
    rw [parseStringRaw_other h1 h3] at h
    rw [if_neg hctl] at h
    simp only [Option.map_eq_some'] at h
    obtain ⟨⟨us1, r1⟩, hp, heq⟩ := h
    simp only [Prod.mk.injEq] at heq
    obtain ⟨rfl, rfl⟩ := heq
    cases u with
    | nil =>
      rw [List.nil_append] at hs
      obtain ⟨q, hq⟩ := parseStringRaw_consumed hp
      have hw2 := hw
      rw [← hs, hq] at hw2
      simp only [List.all_cons, List.all_append, Bool.and_eq_true] at hw2
      exact absurd hw2.2.2.1 (by decide)
    | cons a u1 =>
      rw [List.cons_append] at hs
      injection hs with g1 g2
      subst g1
      obtain ⟨r2, rfl, hp2⟩ := ih g2 hp
      refine ⟨r2, rfl, ?_⟩
      have h3t : ∀ (e : Char) (r1 : List Char), c = '\\' → u1 = e :: r1 → False := by
        intro e r1 hc ht1
        rw [ht1, List.cons_append] at g2
        exact h3 e (r1 ++ w) hc g2
      rw [parseStringRaw_other h1 h3t, if_neg hctl]
      simp only [hp2, Option.map_some']

theorem parseStringRest_local {w : List Char} (hw : w.all jsonWs = true)
    {u : List Char} {cs : List Char} {r : List Char}
    (h : parseStringRest (u ++ w) = some (cs, r)) :
    ∃ r2, r = r2 ++ w ∧ parseStringRest u = some (cs, r2) := by
  rw [parseStringRest] at h
  simp only [Option.map_eq_some'] at h
  obtain ⟨⟨us, r1⟩, hp, heq⟩ := h
  simp only [Prod.mk.injEq] at heq
  obtain ⟨rfl, rfl⟩ := heq
  obtain ⟨r2, rfl, hp2⟩ := parseStringRaw_local hw rfl hp
  refine ⟨r2, rfl, ?_⟩
  rw [parseStringRest]
  simp only [hp2, Option.map_some']

/-- The joint locality lemma for the fuel parser: an all-whitespace
suffix of the input can be removed from a successful parse without
changing the value, the suffix disappearing from the returned rest. -/
theorem parser_local {w : List Char} (hw : w.all jsonWs = true) : ∀ f : Nat,
    (∀ {u : List Char} {v : Json} {r : List Char},
      parseValue f (u ++ w) = some (v, r) →
      ∃ r2, r = r2 ++ w ∧ parseValue f u = some (v, r2)) ∧
    (∀ {acc : List Json} {u : List Char} {v : Json} {r : List Char},
      parseItems f acc (u ++ w) = some (v, r) →
      ∃ r2, r = r2 ++ w ∧ parseItems f acc u = some (v, r2)) ∧
    (∀ {acc : List (String × Json)} {u : List Char} {v : Json} {r : List Char},
      parseFields f acc (u ++ w) = some (v, r) →
      ∃ r2, r = r2 ++ w ∧ parseFields f acc u = some (v, r2)) := by
  intro f
  induction f with
  | zero =>
    refine ⟨?_, ?_, ?_⟩
    · intro u v r h
      simp [parseValue] at h
    · intro acc u v r h
      simp [parseItems] at h
    · intro acc u v r h
      simp [parseFields] at h
  | succ f ih =>
    obtain ⟨ihv, ihi, ihf⟩ := ih
    refine ⟨?_, ?_, ?_⟩
    · intro u v r h
      simp only [parseValue] at h
      split at h
      · rename_i x r0 heq
        obtain ⟨rfl, rfl⟩ : Json.null = v ∧ r0 = r := by simpa using h
        obtain ⟨u1, rfl, h2⟩ := append_ws_cons hw (by decide) heq
        obtain ⟨u2, rfl, h3⟩ := append_ws_cons hw (by decide) h2.symm
        obtain ⟨u3, rfl, h4⟩ := append_ws_cons hw (by decide) h3.symm
        obtain ⟨u4, rfl, h5⟩ := append_ws_cons hw (by decide) h4.symm
        exact ⟨u4, h5, rfl⟩
      · rename_i x r0 heq
        obtain ⟨rfl, rfl⟩ : Json.bool true = v ∧ r0 = r := by simpa using h
        obtain ⟨u1, rfl, h2⟩ := append_ws_cons hw (by decide) heq
        obtain ⟨u2, rfl, h3⟩ := append_ws_cons hw (by decide) h2.symm
        obtain ⟨u3, rfl, h4⟩ := append_ws_cons hw (by decide) h3.symm
        obtain ⟨u4, rfl, h5⟩ := append_ws_cons hw (by decide) h4.symm
        exact ⟨u4, h5, rfl⟩
      · rename_i x r0 heq
        obtain ⟨rfl, rfl⟩ : Json.bool false = v ∧ r0 = r := by simpa using h
        obtain ⟨u1, rfl, h2⟩ := append_ws_cons hw (by decide) heq
        obtain ⟨u2, rfl, h3⟩ := append_ws_cons hw (by decide) h2.symm
        obtain ⟨u3, rfl, h4⟩ := append_ws_cons hw (by decide) h3.symm
        obtain ⟨u4, rfl, h5⟩ := append_ws_cons hw (by decide) h4.symm
        obtain ⟨u5, rfl, h6⟩ := append_ws_cons hw (by decide) h5.symm
        exact ⟨u5, h6, rfl⟩
      · rename_i x r0 heq
        simp only [Option.map_eq_some'] at h
        obtain ⟨⟨cs, r1⟩, hp, heq2⟩ := h
        obtain ⟨rfl, rfl⟩ : Json.str (String.mk cs) = v ∧ r1 = r := by simpa using heq2
        obtain ⟨u1, rfl, h2⟩ := append_ws_cons hw (by decide) heq
        rw [h2] at hp
        obtain ⟨r2, rfl, hp2⟩ := parseStringRest_local hw hp
        refine ⟨r2, rfl, ?_⟩
        have harm : parseValue (f + 1) ('"' :: u1) =
            (parseStringRest u1).map (fun p => (Json.str (String.mk p.1), p.2)) := rfl
        rw [harm]
        simp only [hp2, Option.map_some']
      · rename_i x r0 heq
        obtain ⟨u1, rfl, h2⟩ := append_ws_cons hw (by decide) heq
        have harm : parseValue (f + 1) ('[' :: u1) =
            (match skipWs u1 with
              | ']' :: r2 => some (Json.arr [], r2)
              | r2 => parseItems f [] r2) := rfl
        split at h
        · rename_i r2 heq2
          obtain ⟨rfl, rfl⟩ : Json.arr [] = v ∧ r2 = r := by simpa using h
          rcases hsk : skipWs u1 with _ | ⟨c0, x0⟩
          · rw [h2, skipWs_append_nil hsk hw] at heq2
            exact List.noConfusion heq2
          · rw [h2, skipWs_append_cons hsk] at heq2
            injection heq2 with g1 g2
            subst g1
            refine ⟨x0, g2.symm, ?_⟩
            rw [harm, hsk]
            rfl
        · rename_i hcond
          rcases hsk : skipWs u1 with _ | ⟨c0, x0⟩
          · rw [h2, skipWs_append_nil hsk hw] at h
            rw [parseItems_nil] at h
            exact Option.noConfusion h
          · rw [h2, skipWs_append_cons hsk, ← List.cons_append] at h
            obtain ⟨r2, rfl, hp2⟩ := ihi h
            refine ⟨r2, rfl, ?_⟩
            rw [harm, hsk]
            split
            · rename_i r3 heq3
              injection heq3 with g1 g2
              have hq : skipWs (u1 ++ w) = ']' :: (x0 ++ w) := by
                rw [skipWs_append_cons hsk, g1]
              rw [← h2] at hq
              exact ((hcond (x0 ++ w)) hq).elim
            · exact hp2
      · rename_i x r0 heq
        obtain ⟨u1, rfl, h2⟩ := append_ws_cons hw (by decide) heq
        have harm : parseValue (f + 1) ('{' :: u1) =
            (match skipWs u1 with
              | '}' :: r2 => some (Json.obj [], r2)
              | r2 => parseFields f [] r2) := rfl
        split at h
        · rename_i r2 heq2
          obtain ⟨rfl, rfl⟩ : Json.obj [] = v ∧ r2 = r := by simpa using h
          rcases hsk : skipWs u1 with _ | ⟨c0, x0⟩
          · rw [h2, skipWs_append_nil hsk hw] at heq2
            exact List.noConfusion heq2
          · rw [h2, skipWs_append_cons hsk] at heq2
            injection heq2 with g1 g2
            subst g1
            refine ⟨x0, g2.symm, ?_⟩
            rw [harm, hsk]
            rfl
        · rename_i hcond
          rcases hsk : skipWs u1 with _ | ⟨c0, x0⟩
          · rw [h2, skipWs_append_nil hsk hw] at h
            rw [parseFields_nil] at h
            exact Option.noConfusion h
          · rw [h2, skipWs_append_cons hsk, ← List.cons_append] at h
            obtain ⟨r2, rfl, hp2⟩ := ihf h
            refine ⟨r2, rfl, ?_⟩
            rw [harm, hsk]
            split
            · rename_i r3 heq3
              injection heq3 with g1 g2
              have hq : skipWs (u1 ++ w) = '}' :: (x0 ++ w) := by
                rw [skipWs_append_cons hsk, g1]
              rw [← h2] at hq
              exact ((hcond (x0 ++ w)) hq).elim
            · exact hp2
      · obtain ⟨r2, rfl, hp2⟩ := parseNumber_local hw h
        obtain ⟨c, u0, rfl, hc⟩ := parseNumber_head2 hp2
        refine ⟨r2, rfl, ?_⟩
        have hn1 : c ≠ 'n' := by
          rcases hc with rfl | hd
          · decide
          · rintro rfl
            exact absurd hd (by decide)
        have hn2 : c ≠ 't' := by
          rcases hc with rfl | hd
          · decide
          · rintro rfl
            exact absurd hd (by decide)
        have hn3 : c ≠ 'f' := by
          rcases hc with rfl | hd
          · decide
          · rintro rfl
            exact absurd hd (by decide)
        have hn4 : c ≠ '"' := by
          rcases hc with rfl | hd
          · decide
          · rintro rfl
            exact absurd hd (by decide)
        have hn5 : c ≠ '[' := by
          rcases hc with rfl | hd
          · decide
          · rintro rfl
            exact absurd hd (by decide)
        have hn6 : c ≠ '{' := by
          rcases hc with rfl | hd
          · decide
          · rintro rfl
            exact absurd hd (by decide)
        rw [parseValue_other f c u0 hn1 hn2 hn3 hn4 hn5 hn6]
        exact hp2
    · intro acc u v r h
      simp only [parseItems] at h
      rcases hpv : parseValue f (u ++ w) with _ | ⟨v1, r1⟩
      · rw [hpv] at h
        exact Option.noConfusion h
      simp only [hpv] at h
      obtain ⟨r1u, rfl, hpv2⟩ := ihv hpv
      split at h
      · rename_i r2 heq
        rcases hsk : skipWs r1u with _ | ⟨c0, x0⟩
        · rw [skipWs_append_nil hsk hw] at heq
          exact List.noConfusion heq
        · rw [skipWs_append_cons hsk] at heq
          injection heq with g1 g2
          subst g1
          rw [← g2] at h
          rcases hsk2 : skipWs x0 with _ | ⟨c1, x1⟩
          · rw [skipWs_append_nil hsk2 hw, parseItems_nil] at h
            exact Option.noConfusion h
          · rw [skipWs_append_cons hsk2, ← List.cons_append] at h
            obtain ⟨r3, rfl, hp3⟩ := ihi h
            refine ⟨r3, rfl, ?_⟩
            simp only [parseItems, hpv2, hsk]
            rw [hsk2]
            exact hp3
      · rename_i r2 heq
        obtain ⟨rfl, rfl⟩ : Json.arr (acc ++ [v1]) = v ∧ r2 = r := by simpa using h
        rcases hsk : skipWs r1u with _ | ⟨c0, x0⟩
        · rw [skipWs_append_nil hsk hw] at heq
          exact List.noConfusion heq
        · rw [skipWs_append_cons hsk] at heq
          injection heq with g1 g2
          subst g1
          refine ⟨x0, g2.symm, ?_⟩
          simp only [parseItems, hpv2, hsk]
      · exact Option.noConfusion h
    · intro acc u v r h
      simp only [parseFields] at h
      split at h
      · rename_i x r0 heq
        obtain ⟨u1, rfl, h2⟩ := append_ws_cons hw (by decide) heq
        rcases hps : parseStringRest r0 with _ | ⟨k1, r1⟩
        · rw [hps] at h
          exact Option.noConfusion h
        simp only [hps] at h
        rw [h2] at hps
        obtain ⟨r1u, rfl, hps2⟩ := parseStringRest_local hw hps
        split at h
        · rename_i r2 heq1
          rcases hsk1 : skipWs r1u with _ | ⟨c0, x0⟩
          · rw [skipWs_append_nil hsk1 hw] at heq1
            exact List.noConfusion heq1
          · rw [skipWs_append_cons hsk1] at heq1
            injection heq1 with g1 g2
            subst g1
            rw [← g2] at h
            rcases hsk2 : skipWs x0 with _ | ⟨c1, x1⟩
            · rw [skipWs_append_nil hsk2 hw] at h
              rw [parseValue_nil] at h
              exact Option.noConfusion h
            · rw [skipWs_append_cons hsk2, ← List.cons_append] at h
              rcases hpv : parseValue f ((c1 :: x1) ++ w) with _ | ⟨v1, r3⟩
              · rw [hpv] at h
                exact Option.noConfusion h
              simp only [hpv] at h
              obtain ⟨r3u, rfl, hpv2⟩ := ihv hpv
              split at h
              · rename_i r4 heq2
                rcases hsk3 : skipWs r3u with _ | ⟨c2, x2⟩
                · rw [skipWs_append_nil hsk3 hw] at heq2
                  exact List.noConfusion heq2
                · rw [skipWs_append_cons hsk3] at heq2
                  injection heq2 with g3 g4
                  subst g3
                  rw [← g4] at h
                  rcases hsk4 : skipWs x2 with _ | ⟨c3, x3⟩
                  · rw [skipWs_append_nil hsk4 hw, parseFields_nil] at h
                    exact Option.noConfusion h
                  · rw [skipWs_append_cons hsk4, ← List.cons_append] at h
                    obtain ⟨r5, rfl, hp5⟩ := ihf h
                    refine ⟨r5, rfl, ?_⟩
                    simp only [parseFields, hps2, hsk1, hsk2, hpv2, hsk3]
                    rw [hsk4]
                    exact hp5
              · rename_i r4 heq2
                obtain ⟨rfl, rfl⟩ :
                    Json.obj (insertField acc (String.mk k1) v1) = v ∧ r4 = r := by
                  simpa using h
                rcases hsk3 : skipWs r3u with _ | ⟨c2, x2⟩
                · rw [skipWs_append_nil hsk3 hw] at heq2
                  exact List.noConfusion heq2
                · rw [skipWs_append_cons hsk3] at heq2
                  injection heq2 with g3 g4
                  subst g3
                  refine ⟨x2, g4.symm, ?_⟩
                  simp only [parseFields, hps2, hsk1, hsk2, hpv2, hsk3]
              · exact Option.noConfusion h
        · exact Option.noConfusion h
      · exact Option.noConfusion h

/-! ## C6 development: `JSON.parse` is invariant under trimming and
end-of-line normalization of its input -/

theorem trimJS_shape {x q rest : List Char} {c0 c1 : Char} {rest0 : List Char}
    (h0 : skipWs x = c0 :: rest0) (h0w : jsWsChar c0 = false)
    (hqr : c0 :: rest0 = q ++ c1 :: rest)
    (h1w : jsWsChar c1 = false) (hrw : rest.all jsonWs = true) :
    trimJS x = q ++ [c1] := by
  have hall : (x.takeWhile jsonWs).all jsWsChar = true := by
    have h := (skipWs_decomp x).2
    simp only [List.all_eq_true] at h ⊢
    intro a ha
    exact jsonWs_jsWsChar (h a ha)
  have hfront : x.dropWhile jsWsChar = c0 :: rest0 := by
    conv_lhs => rw [(skipWs_decomp x).1, h0]
    rw [dropWhile_all_append _ hall, List.dropWhile_cons, if_neg (by simp [h0w])]
  have hallr : rest.reverse.all jsWsChar = true := by
    simp only [List.all_eq_true] at hrw ⊢
    intro a ha
    rw [List.mem_reverse] at ha
    exact jsonWs_jsWsChar (hrw a ha)
  rw [trimJS, hfront, hqr, List.reverse_append, List.reverse_cons,
    List.append_assoc, dropWhile_all_append _ hallr, List.singleton_append,
    List.dropWhile_cons, if_neg (by simp [h1w]), List.reverse_cons,
    List.reverse_reverse]

theorem parseJson_trimJS {x : List Char} {v : Json} (h : parseJson x = some v) :
    parseJson (trimJS x) = some v := by
  rcases hpv : parseValue (2 * countNonWs x + 2) (skipWs x) with _ | ⟨v1, rest⟩
  · simp only [parseJson, hpv] at h
    exact Option.noConfusion h
  · simp only [parseJson, hpv] at h
    split at h
    · rename_i hall
      injection h with h2
      subst h2
      obtain ⟨c0, rest0, h0, h0ws, h0jws⟩ := parseValue_head hpv
      obtain ⟨q, c1, hqr, h1jws, h1ws⟩ := (parser_consumed _).1 hpv
      have htrim : trimJS x = q ++ [c1] :=
        trimJS_shape h0 h0jws (h0.symm.trans hqr) h1jws hall
      obtain ⟨r2, hr2, hq1⟩ := (parser_local hall (2 * countNonWs x + 2)).1
        (u := q ++ [c1])
        (by rw [List.append_assoc, List.singleton_append, ← hqr]; exact hpv)
      have hr2nil : r2 = [] := by
        have hlen := congrArg List.length hr2
        rw [List.length_append] at hlen
        rw [← List.length_eq_zero]
        omega
      subst hr2nil
      have hcnt : countNonWs (q ++ [c1]) = countNonWs x := by
        rw [← countNonWs_skipWs x, hqr, countNonWs_append, countNonWs_append,
          countNonWs_cons, countNonWs_cons, countNonWs_ws hall]
        rfl
      have hskq : skipWs (q ++ [c1]) = q ++ [c1] := by
        cases q with
        | nil =>
          rw [List.nil_append, skipWs, List.dropWhile_cons,
            if_neg (by simp [h1ws])]
        | cons a q1 =>
          have hx := h0.symm.trans hqr
          rw [List.cons_append] at hx
          injection hx with g1 g2
          rw [List.cons_append, skipWs, List.dropWhile_cons,
            if_neg (by rw [← g1]; simp [h0ws])]
      rw [htrim]
      simp only [parseJson, hskq, hcnt, hq1]
      simp
    · exact Option.noConfusion h

theorem parseJson_normEOL {x : List Char} {v : Json} (h : parseJson x = some v) :
    parseJson (normEOL x) = some v := by
  rcases hpv : parseValue (2 * countNonWs x + 2) (skipWs x) with _ | ⟨v1, rest⟩
  · simp only [parseJson, hpv] at h
    exact Option.noConfusion h
  · simp only [parseJson, hpv] at h
    split at h
    · rename_i hall
      injection h with h2
      subst h2
      obtain ⟨r2, hpv2, hrel2⟩ :=
        (parser_sim _).1 (CRDel_skipWs (CRDel_normEOL x)) hpv
      have hall2 := CRDel_all_ws hrel2 hall
      simp only [parseJson, countNonWs_normEOL, hpv2]
      simp [hall2]
    · exact Option.noConfusion h

/-! ## C6 development: the fence wrapper at the string level

`stripCodeFence` on the wrapped payload takes the prefix/suffix branch:
it drops the header and footer lines and joins the payload lines with
`"\n"`, which normalizes CR-LF pairs and trims the result. -/

theorem consLine_ne_nil (c : Char) (L : List (List Char)) : consLine c L ≠ [] := by
  cases L <;> simp [consLine]

theorem linesChomp_cons_ne (c : Char) (r : List Char)
    (h1 : c = '\r' → r = [] → False)
    (h2 : ∀ r1, c = '\r' → r = '\n' :: r1 → False)
    (h3 : c = '\n' → False) :
    linesChomp (c :: r) = consLine c (linesChomp r) := by
  conv_lhs => rw [linesChomp.eq_def]
  split
  · rename_i heq
    exact absurd heq (by simp)
  · rename_i heq
    injection heq with g1 g2
    exact (h1 g1 g2).elim
  · rename_i r1 heq
    injection heq with g1 g2
    exact (h2 r1 g1 g2).elim
  · rename_i r1 heq
    injection heq with g1 g2
    exact (h3 g1).elim
  · rename_i c1 r1 hc1 hc2 hc3 heq
    injection heq with g1 g2
    subst g1
    subst g2
    rfl

theorem linesChomp_ne_nil : ∀ r : List Char, linesChomp r ≠ [] := by
  intro r
  induction r using linesChomp.induct with
  | case1 => simp [linesChomp]
  | case2 =>
    rw [show linesChomp ['\r'] = [[]] from rfl]
    simp
  | case3 r ih =>
    rw [show linesChomp ('\r' :: '\n' :: r) = [] :: linesChomp r from rfl]
    simp
  | case4 r ih =>
    rw [show linesChomp ('\n' :: r) = [] :: linesChomp r from rfl]
    simp
  | case5 c r h1 h2 h3 ih =>
    rw [linesChomp_cons_ne c r h1 h2 h3]
    exact consLine_ne_nil c _

theorem joinNL_consLine (c : Char) (L : List (List Char)) :
    joinNL (consLine c L) = c :: joinNL L := by
  match L with
  | [] => rfl
  | [l] => rfl
  | l :: m :: ms => rfl

theorem consLine_append (c : Char) (A B : List (List Char)) (hA : A ≠ []) :
    consLine c (A ++ B) = consLine c A ++ B := by
  cases A with
  | nil => exact absurd rfl hA
  | cons l ls => rfl

theorem splitCRLF_cons_ne (c : Char) (r : List Char)
    (h2 : ∀ r1, c = '\r' → r = '\n' :: r1 → False)
    (h3 : c = '\n' → False) :
    splitCRLF (c :: r) = consLine c (splitCRLF r) := by
  conv_lhs => rw [splitCRLF.eq_def]
  split
  · rename_i heq
    exact absurd heq (by simp)
  · rename_i r1 heq
    injection heq with g1 g2
    exact (h2 r1 g1 g2).elim
  · rename_i r1 heq
    injection heq with g1 g2
    exact (h3 g1).elim
  · rename_i c1 r1 hc1 hc2 heq
    injection heq with g1 g2
    subst g1
    subst g2
    rfl

theorem splitCRLF_append_chomp (tail : List Char) :
    ∀ J : List Char,
    splitCRLF (J ++ '\n' :: tail) = linesChomp J ++ splitCRLF tail := by
  intro J
  induction J using linesChomp.induct with
  | case1 =>
    rw [List.nil_append]
    rw [show splitCRLF ('\n' :: tail) = [] :: splitCRLF tail from rfl]
    rfl
  | case2 =>
    rw [show (['\r'] : List Char) ++ '\n' :: tail = '\r' :: '\n' :: tail from rfl]
    rw [show splitCRLF ('\r' :: '\n' :: tail) = [] :: splitCRLF tail from rfl]
    rfl
  | case3 r ih =>
    rw [show ('\r' :: '\n' :: r) ++ '\n' :: tail
        = '\r' :: '\n' :: (r ++ '\n' :: tail) from rfl]
    rw [show splitCRLF ('\r' :: '\n' :: (r ++ '\n' :: tail))
        = [] :: splitCRLF (r ++ '\n' :: tail) from rfl]
    rw [ih]
    rfl
  | case4 r ih =>
    rw [show ('\n' :: r) ++ '\n' :: tail = '\n' :: (r ++ '\n' :: tail) from rfl]
    rw [show splitCRLF ('\n' :: (r ++ '\n' :: tail))
        = [] :: splitCRLF (r ++ '\n' :: tail) from rfl]
    rw [ih]
    rfl
  | case5 c r h1 h2 h3 ih =>
    have hh : ∀ r1, c = '\r' → r ++ '\n' :: tail = '\n' :: r1 → False := by
      intro r1 hc hr
      cases r with
      | nil => exact h1 hc rfl
      | cons y r2 =>
        rw [List.cons_append] at hr
        injection hr with g1 g2
        exact h2 r2 hc (by rw [g1])
    rw [List.cons_append, splitCRLF_cons_ne c _ hh h3, ih,
      linesChomp_cons_ne c r h1 h2 h3, consLine_append c _ _ (linesChomp_ne_nil r)]

theorem normEOLChomp_cons_ne (c : Char) (r : List Char)
    (h1 : c = '\r' → r = [] → False)
    (h2 : ∀ r1, c = '\r' → r = '\n' :: r1 → False) :
    normEOLChomp (c :: r) = c :: normEOLChomp r := by
  conv_lhs => rw [normEOLChomp.eq_def]
  split
  · rename_i heq
    exact absurd heq (by simp)
  · rename_i heq
    injection heq with g1 g2
    exact (h1 g1 g2).elim
  · rename_i r1 heq
    injection heq with g1 g2
    exact (h2 r1 g1 g2).elim
  · rename_i c1 r1 hc1 hc2 heq
    injection heq with g1 g2
    subst g1
    subst g2
    rfl

theorem joinNL_linesChomp : ∀ J : List Char,
    joinNL (linesChomp J) = normEOLChomp J := by
  intro J
  induction J using linesChomp.induct with
  | case1 => rfl
  | case2 => rfl
  | case3 r ih =>
    rw [show linesChomp ('\r' :: '\n' :: r) = [] :: linesChomp r from rfl]
    rcases hL : linesChomp r with _ | ⟨l, ls⟩
    · exact absurd hL (linesChomp_ne_nil r)
    · rw [show joinNL ([] :: l :: ls) = '\n' :: joinNL (l :: ls) from rfl]
      rw [← hL, ih]
      rfl
  | case4 r ih =>
    rw [show linesChomp ('\n' :: r) = [] :: linesChomp r from rfl]
    rcases hL : linesChomp r with _ | ⟨l, ls⟩
    · exact absurd hL (linesChomp_ne_nil r)
    · rw [show joinNL ([] :: l :: ls) = '\n' :: joinNL (l :: ls) from rfl]
      rw [← hL, ih]
      rfl
  | case5 c r h1 h2 h3 ih =>
    rw [linesChomp_cons_ne c r h1 h2 h3, joinNL_consLine, ih,
      normEOLChomp_cons_ne c r h1 h2]

theorem normEOL_chomp_rel : ∀ J : List Char,
    normEOL J = normEOLChomp J ∨ normEOL J = normEOLChomp J ++ ['\r'] := by
  intro J
  induction J using normEOLChomp.induct with
  | case1 => exact Or.inl rfl
  | case2 => exact Or.inr rfl
  | case3 r ih =>
    rcases ih with h | h
    · exact Or.inl (by
        rw [show normEOL ('\r' :: '\n' :: r) = '\n' :: normEOL r from rfl, h]
        rfl)
    · exact Or.inr (by
        rw [show normEOL ('\r' :: '\n' :: r) = '\n' :: normEOL r from rfl, h]
        rfl)
  | case4 c r h1 h2 ih =>
    rcases ih with h | h
    · exact Or.inl (by
        rw [normEOL_cons_ne c r h2, h, normEOLChomp_cons_ne c r h1 h2])
    · exact Or.inr (by
        rw [normEOL_cons_ne c r h2, h, normEOLChomp_cons_ne c r h1 h2]
        rfl)

theorem dropWhile_head_not {p : Char → Bool} :
    ∀ {s : List Char} {c : Char} {r : List Char},
    s.dropWhile p = c :: r → p c = false := by
  intro s
  induction s with
  | nil =>
    intro c r h
    simp at h
  | cons a s ih =>
    intro c r h
    by_cases ha : p a = true
    · rw [List.dropWhile_cons, if_pos (by simp [ha])] at h
      exact ih h
    · rw [List.dropWhile_cons, if_neg ha] at h
      injection h with g1 g2
      subst g1
      simpa using ha

theorem takeWhile_all (p : Char → Bool) (s : List Char) :
    (s.takeWhile p).all p = true := by
  simp only [List.all_eq_true]
  intro a ha
  exact List.mem_takeWhile_imp ha

theorem dropWhile_all_nil {p : Char → Bool} {w : List Char}
    (hw : w.all p = true) : w.dropWhile p = [] := by
  have h := dropWhile_all_append (p := p) [] hw
  rwa [List.append_nil] at h

theorem trimJS_append_ws {x w : List Char} (hw : w.all jsWsChar = true) :
    trimJS (x ++ w) = trimJS x := by
  rw [trimJS, trimJS]
  rcases hd : x.dropWhile jsWsChar with _ | ⟨c, z⟩
  · have hall : x.all jsWsChar = true := by
      conv_lhs => rw [← List.takeWhile_append_dropWhile jsWsChar x, hd]
      rw [List.append_nil]
      exact takeWhile_all jsWsChar x
    have h2 : (x ++ w).dropWhile jsWsChar = [] := by
      rw [dropWhile_all_append _ hall]
      exact dropWhile_all_nil hw
    rw [h2]
  · have hcw : jsWsChar c = false := dropWhile_head_not hd
    have h2 : (x ++ w).dropWhile jsWsChar = c :: (z ++ w) := by
      conv_lhs =>
        rw [show x = x.takeWhile jsWsChar ++ x.dropWhile jsWsChar from
          (List.takeWhile_append_dropWhile jsWsChar x).symm, hd]
      rw [List.append_assoc, dropWhile_all_append _ (takeWhile_all jsWsChar x),
        List.cons_append, List.dropWhile_cons, if_neg (by simp [hcw])]
    rw [h2]
    rw [List.reverse_cons, List.reverse_cons, List.reverse_append,
      List.append_assoc]
    have hwr : w.reverse.all jsWsChar = true := by
      simp only [List.all_eq_true] at hw ⊢
      intro a ha
      exact hw a (List.mem_reverse.mp ha)
    rw [dropWhile_all_append _ hwr]

theorem wrapJsonFence_reverse (J : List Char) :
    (wrapJsonFence J).reverse
      = '`' :: '`' :: '`' :: '\n'
        :: (J.reverse ++ ['\n', 'n', 'o', 's', 'j', '`', '`', '`']) := by
  rw [show wrapJsonFence J
      = '`' :: '`' :: '`' :: 'j' :: 's' :: 'o' :: 'n' :: '\n'
        :: (J ++ '\n' :: fence3) from rfl]
  simp [fence3, List.reverse_cons, List.reverse_append]

theorem trimJS_wrap (J : List Char) :
    trimJS (wrapJsonFence J) = wrapJsonFence J := by
  have h1 : (wrapJsonFence J).dropWhile jsWsChar = wrapJsonFence J := by
    rw [show wrapJsonFence J
        = '`' :: ('`' :: '`' :: 'j' :: 's' :: 'o' :: 'n' :: '\n'
          :: (J ++ '\n' :: fence3)) from rfl]
    rw [List.dropWhile_cons, if_neg (by decide)]
  have h2 : (wrapJsonFence J).reverse.dropWhile jsWsChar
      = (wrapJsonFence J).reverse := by
    rw [wrapJsonFence_reverse, List.dropWhile_cons, if_neg (by decide)]
  rw [trimJS, h1, h2, List.reverse_reverse]

/-- Part A of the fence round trip: on the wrapped payload, the
stripping function takes the prefix/suffix branch and returns the
payload with CR-LF pairs collapsed and ends trimmed. -/
theorem stripCodeFence_wrap (J : List Char) :
    stripCodeFence (wrapJsonFence J) = trimJS (normEOL J) := by
  simp only [stripCodeFence, trimJS_wrap]
  have hpre : fence3.isPrefixOf (wrapJsonFence J) = true := rfl
  have hsuf : fence3.isSuffixOf (wrapJsonFence J) = true := by
    simp only [List.isSuffixOf, wrapJsonFence_reverse]
    rfl
  rw [if_pos (by rw [hpre, hsuf]; rfl)]
  have hsplit : splitCRLF (wrapJsonFence J)
      = ['`', '`', '`', 'j', 's', 'o', 'n'] :: splitCRLF (J ++ '\n' :: fence3) := rfl
  rw [hsplit]
  rw [show (['`', '`', '`', 'j', 's', 'o', 'n']
      :: splitCRLF (J ++ '\n' :: fence3)).drop 1
      = splitCRLF (J ++ '\n' :: fence3) from rfl]
  rw [splitCRLF_append_chomp fence3 J,
    show splitCRLF fence3 = [['`', '`', '`']] from rfl,
    List.dropLast_concat, joinNL_linesChomp]
  rcases normEOL_chomp_rel J with h | h
  · rw [h]
  · rw [h, trimJS_append_ws (by decide : (['\r'] : List Char).all jsWsChar = true)]

/-- C6: for every JSON text `J` (a text accepted by `JSON.parse`),
applying the fence-stripping function to the wrapped string
three-backticks + `json` + newline + `J` + newline + three-backticks
yields text that parses to the same JSON value as parsing `J` directly:
stripping the fenced wrapper is the inverse of wrapping. -/
theorem c6_fence_roundtrip (J : List Char) (v : Json) (h : parseJson J = some v) :
    parseJson (stripCodeFence (wrapJsonFence J)) = some v := by
  rw [stripCodeFence_wrap]
  exact parseJson_trimJS (parseJson_normEOL h)

theorem c6_fence_roundtrip_witness :
    parseJson ['{', '\r', '\n', '}'] = some (Json.obj []) ∧
    parseJson (stripCodeFence (wrapJsonFence ['{', '\r', '\n', '}']))
      = some (Json.obj []) :=
  ⟨rfl, c6_fence_roundtrip ['{', '\r', '\n', '}'] (Json.obj []) rfl⟩

end Theorems

end Chatbot
